import Mathlib

/-!
Verification of the macro-expansion engine and conditional-compilation walker
of a GLSL preprocessor (src/preprocessor/preprocessor.ts), via a shallow
embedding.  Text is modelled as `List Char`; the JavaScript string/regex
operations used by the source (word-boundary matching, `String.replace` with
its `$`-substitution rules, `String.trim`, `parseInt`, …) are embedded
explicitly.  The recursion of `expandMacros` / `expandObjectMacro` /
`expandFunctionMacro` is not structurally decreasing (and, as proved below,
does not terminate on some inputs), so the engine takes an explicit fuel
argument and a distinguished out-of-fuel result.
-/

set_option maxHeartbeats 1000000

namespace GlslPP

abbrev Text := List Char

/-- Character class `\w` of JavaScript regexes: ASCII letters, digits, underscore. -/
def isWordChar (c : Char) : Bool :=
  c.isAlpha || c.isDigit || c = '_'

/-- Character class `\s` of JavaScript regexes (the whitespace code points that
can occur here; JS also counts a few more exotic Unicode spaces). -/
def isJsSpace (c : Char) : Bool :=
  c = ' ' || c = '\t' || c = '\n' || c = '\r' || c = Char.ofNat 11 ||
  c = Char.ofNat 12 || c = Char.ofNat 0xa0 || c = Char.ofNat 0xfeff ||
  c = Char.ofNat 0x2028 || c = Char.ofNat 0x2029

def isWordOpt : Option Char → Bool
  | some c => isWordChar c
  | none => false

/-- A `\b` word boundary sits between two positions whose characters differ in
word-ness; out of range counts as non-word. -/
def wordBoundary (l r : Option Char) : Bool :=
  isWordOpt l != isWordOpt r

/-- Does `s` start with `pat`? -/
def textStarts : Text → Text → Bool
  | _, [] => true
  | [], _ :: _ => false
  | c :: cs, p :: ps => c = p && textStarts cs ps

/-- First index (from `i`) at which `pat` occurs in the remaining text,
the plain substring search of JavaScript `String.replace` with a string pattern. -/
def idxOfGo (pat : Text) : Text → Nat → Option Nat
  | [], i => if pat = [] then some i else none
  | s@(_ :: rest), i => if textStarts s pat then some i else idxOfGo pat rest (i + 1)

def idxOf (pat s : Text) : Option Nat :=
  idxOfGo pat s 0

/-- JavaScript `String.prototype.trim`. -/
def trimJS (s : Text) : Text :=
  ((s.dropWhile isJsSpace).reverse.dropWhile isJsSpace).reverse

def sq : Char := Char.ofNat 39

def bq : Char := Char.ofNat 96

/-- GetSubstitution of ECMAScript `String.replace` with a string replacement:
the replacement text is scanned for `$$` (a literal dollar), `$&` (the matched
text), a dollar followed by a backquote (the text before the match) and `$`
followed by an apostrophe (the text after the match).  `$n` forms are
substituted only when the pattern has capture groups; the patterns built by
the preprocessor have none, so they fall through to the literal default here. -/
def getSubstitution (matched before after : Text) : Text → Text
  | [] => []
  | '$' :: '$' :: rest => '$' :: getSubstitution matched before after rest
  | '$' :: '&' :: rest => matched ++ getSubstitution matched before after rest
  | '$' :: c :: rest =>
    if c = bq then before ++ getSubstitution matched before after rest
    else if c = sq then after ++ getSubstitution matched before after rest
    else '$' :: getSubstitution matched before after (c :: rest)
  | c :: rest => c :: getSubstitution matched before after rest

/-- JavaScript `s.replace(pat, repl)` with a plain string pattern: the first
occurrence of `pat` (found by substring search, not by the regex that located
the macro) is replaced by `repl` after `$`-substitution. -/
def replaceFirstStr (s pat repl : Text) : Text :=
  match idxOf pat s with
  | none => s
  | some i =>
    s.take i ++ getSubstitution pat (s.take i) (s.drop (i + pat.length)) repl ++
      s.drop (i + pat.length)

/-- Does `\b name \b` match at the head of `s`, where `prev` is the character
just before `s` in the enclosing string? -/
def matchWBAt (name : Text) (prev : Option Char) (s : Text) : Bool :=
  decide (name ≠ []) && textStarts s name && wordBoundary prev name.head? &&
    wordBoundary name.getLast? (s.drop name.length).head?

theorem matchWBAt_imp (h : matchWBAt name prev s = true) :
    name ≠ [] ∧ textStarts s name = true := by
  simp only [matchWBAt, Bool.and_eq_true, decide_eq_true_eq] at h
  exact ⟨h.1.1.1, h.1.1.2⟩

theorem textStarts_length (h : textStarts s pat = true) : pat.length ≤ s.length := by
  induction pat generalizing s with
  | nil => simp
  | cons p ps ih =>
    cases s with
    | nil => simp [textStarts] at h
    | cons c cs =>
      simp only [textStarts, Bool.and_eq_true] at h
      simpa [List.length_cons] using Nat.succ_le_succ (ih h.2)

/-- Test of the regex `\b name \b` against `text` (`regex.test` in
`expandObjectMacro`). -/
def containsWBGo (name : Text) : Option Char → Text → Bool
  | _, [] => false
  | prev, s@(c :: rest) => matchWBAt name prev s || containsWBGo name (some c) rest

def containsWB (name t : Text) : Bool :=
  containsWBGo name none t

theorem length_dropWhile_le (p : Char → Bool) (l : Text) :
    (l.dropWhile p).length ≤ l.length := by
  induction l with
  | nil => simp
  | cons c cs ih =>
    by_cases h : p c
    · simpa [List.dropWhile, h] using Nat.le_succ_of_le ih
    · simp [List.dropWhile, h]

/-- Global replacement of the regex `\b name \b` in `text` by `repl`
(`text.replace(new RegExp(..., 'g'), scanned)` in `expandObjectMacro`):
successive non-overlapping matches are each substituted via `getSubstitution`.
`consumed` is the part of the original text already scanned (needed both for
the boundary test and for the `$`-substitution context). -/
def replaceAllWBGo (name repl : Text) : Nat → Text → Text → Text
  | 0, _, s => s
  | _ + 1, _, [] => []
  | fuel + 1, consumed, c :: rest =>
    if matchWBAt name consumed.getLast? (c :: rest) then
      getSubstitution name consumed ((c :: rest).drop name.length) repl ++
        replaceAllWBGo name repl fuel (consumed ++ name) ((c :: rest).drop name.length)
    else
      c :: replaceAllWBGo name repl fuel (consumed ++ [c]) rest

def replaceAllWB (name repl t : Text) : Text :=
  replaceAllWBGo name repl (t.length + 1) [] t

/-- Token pasting: `str.replace(/\s+##\s+/g, '')`.  Matches are found left to
right; since `#` is not whitespace, a match starts exactly at a maximal
whitespace run that is followed by `##` and more whitespace, and consumes the
whitespace on both sides of the `##`. -/
def tokenPasteGo : Nat → Text → Text
  | 0, s => s
  | _ + 1, [] => []
  | fuel + 1, c :: r =>
    if isJsSpace c then
      let rest := (c :: r).dropWhile isJsSpace
      if rest.take 2 = "##".data ∧ (rest.drop 2).takeWhile isJsSpace ≠ [] then
        tokenPasteGo fuel ((rest.drop 2).dropWhile isJsSpace)
      else
        c :: tokenPasteGo fuel r
    else
      c :: tokenPasteGo fuel r

def tokenPaste (s : Text) : Text :=
  tokenPasteGo (s.length + 1) s

/-- Scan of the regex `\b name \s* \(` (`startRegex` in `expandFunctionMacro`):
returns the index of the leftmost match and the length of the matched text
(name, optional whitespace, opening paren). -/
def findFnCallGo (name : Text) : Option Char → Nat → Text → Option (Nat × Nat)
  | _, _, [] => none
  | prev, i, s@(c :: rest) =>
    if decide (name ≠ []) && textStarts s name && wordBoundary prev name.head? then
      let after := s.drop name.length
      let ws := after.takeWhile isJsSpace
      if (after.drop ws.length).head? = some '(' then
        some (i, name.length + ws.length + 1)
      else
        findFnCallGo name (some c) (i + 1) rest
    else
      findFnCallGo name (some c) (i + 1) rest

def findFnCall (name t : Text) : Option (Nat × Nat) :=
  findFnCallGo name none 0 t

/-- The balancing argument scanner `scanFunctionArgs`.  `i` counts the
characters consumed so far; `parens` is the running depth. -/
def scanArgsGo : Text → Int → List Text → Text → Nat → Option (List Text × Nat)
  | [], _, _, _, _ => none
  | c :: rest, parens, args, arg, i =>
    let parens1 := if c = '(' then parens + 1 else parens
    let parens2 := if c = ')' then parens1 - 1 else parens1
    if parens2 = -1 then
      some ((if arg = [] ∧ args = [] then args else args ++ [arg]), i)
    else if c = ',' ∧ parens2 = 0 then
      scanArgsGo rest parens2 (args ++ [arg]) [] (i + 1)
    else
      scanArgsGo rest parens2 args (arg ++ [c]) (i + 1)

def scanFunctionArgs (src : Text) : Option (List Text × Nat) :=
  scanArgsGo src 0 [] [] 0

/-- Parameter-list entries of a `DefineArguments` node: identifier nodes and
literal nodes (the comma separators). -/
inductive PNode where
  | ident (s : Text)
  | lit (s : Text)
deriving DecidableEq, Repr

/-- The `Macro` record: `args` present means function-like. -/
structure MacroDef where
  args : Option (List PNode)
  body : Text
deriving DecidableEq, Repr

/-- The `Macros` environment: a JavaScript object, i.e. an insertion-ordered
association list with unique keys. -/
abbrev Macros := List (Text × MacroDef)

/-- The `without` helper: rebuild the environment minus one key, preserving order. -/
def withoutName (ms : Macros) (name : Text) : Macros :=
  ms.filter fun e => e.1 ≠ name

/-- Own-key membership of the environment object: the view taken by
`Object.entries`, `delete macros[k]`, `without`, and by property assignment
(`macros[k] = v` shadows an inherited name with a fresh own key). -/
def hasName (ms : Macros) (name : Text) : Bool :=
  ms.any fun e => e.1 = name

/-- The own property names of `Object.prototype` in an ECMAScript engine
(including the Annex B accessor pairs, present in every mainstream engine). -/
def objectProtoKeys : List Text :=
  ["constructor".data, "hasOwnProperty".data, "isPrototypeOf".data,
   "propertyIsEnumerable".data, "toLocaleString".data, "toString".data,
   "valueOf".data, "__proto__".data, "__defineGetter__".data,
   "__defineSetter__".data, "__lookupGetter__".data, "__lookupSetter__".data]

/-- JavaScript `name in macros` (preprocessor.ts lines 327, 329 and 338): the
`in` operator walks the prototype chain, and the environments the program
builds are plain objects whose prototype is `Object.prototype`, so that
object's property names always test as present — even under an empty
environment, and even after `delete`.  (An assignment to the literal key
__proto__, which would swap the prototype object itself instead of creating a
key, is not modelled, matching defineName below.) -/
def inOp (ms : Macros) (name : Text) : Bool :=
  hasName ms name || objectProtoKeys.contains name

/-- JavaScript `macros[name] = m`: assignment to an existing key keeps its
position; a new key is appended. -/
def defineName (ms : Macros) (name : Text) (m : MacroDef) : Macros :=
  if hasName ms name then ms.map (fun e => if e.1 = name then (name, m) else e)
  else ms ++ [(name, m)]

/-- The filter `(arg as PreprocessorLiteralNode).literal !== ','` on the raw
parameter list (identifier nodes have no `literal` field, so they are kept). -/
def isCommaLit : PNode → Bool
  | .lit s => s = [',']
  | .ident _ => false

/-- The projection `(a as PreprocessorIdentifierNode).identifier`.  On a
literal node the JavaScript value is `undefined`, which the template string
building the parameter regex renders as the text `undefined`. -/
def identOf : PNode → Text
  | .ident s => s
  | .lit _ => "undefined".data

/-- Result of a fuel-indexed computation: a value, fuel exhaustion, or one of
the `throw new Error(...)` exits of the source, carrying the message text. -/
inductive PRes (α : Type) where
  | ok (a : α)
  | outOfFuel
  | err (msg : Text)
deriving DecidableEq, Repr

def PRes.bind {α β : Type} : PRes α → (α → PRes β) → PRes β
  | .ok a, f => f a
  | .outOfFuel, _ => .outOfFuel
  | .err m, _ => .err m

theorem PRes.bind_eq_ok {α β : Type} {x : PRes α} {f : α → PRes β} {b : β}
    (h : PRes.bind x f = .ok b) : ∃ a, x = .ok a ∧ f a = .ok b := by
  cases x with
  | ok a => exact ⟨a, rfl, h⟩
  | outOfFuel => simp [PRes.bind] at h
  | err m => simp [PRes.bind] at h

/-- First alternative of the parameter regex
`(\bp1\b|\bp2\b|…)` matching at the current position. -/
def firstParamMatch (prev : Option Char) (s : Text) : List Text → Option Text
  | [] => none
  | pid :: rest =>
    if matchWBAt pid prev s then some pid else firstParamMatch prev s rest

theorem firstParamMatch_imp {ids : List Text} {pid : Text}
    (h : firstParamMatch prev s ids = some pid) :
    pid ≠ [] ∧ textStarts s pid = true := by
  induction ids with
  | nil => simp [firstParamMatch] at h
  | cons a rest ih =>
    by_cases ha : matchWBAt a prev s = true
    · simp only [firstParamMatch, ha, if_true, Option.some.injEq] at h
      exact h ▸ matchWBAt_imp ha
    · simp only [firstParamMatch, ha, if_false, Bool.false_eq_true] at h
      exact ih h

/-- JavaScript object lookup for `argKeys`: a later assignment to the same
key overwrites an earlier one. -/
def lookupLast : List (Text × Text) → Text → Option Text
  | [], _ => none
  | (k, v) :: rest, s =>
    match lookupLast rest s with
    | some r => some r
    | none => if k = s then some v else none

/-- The one-pass substitution of macro parameters in the macro body:
`macro.body.replace(new RegExp('(\bp1\b|…)', 'g'), match => argKeys[match] ?? match)`.
A function replacer inserts its result verbatim (no `$`-substitution). -/
def replaceParamsGo (ids : List Text) (keys : List (Text × Text)) :
    Nat → Option Char → Text → Text
  | 0, _, s => s
  | _ + 1, _, [] => []
  | fuel + 1, prev, c :: rest =>
    match firstParamMatch prev (c :: rest) ids with
    | some pid =>
      (match lookupLast keys pid with
       | some v => v
       | none => pid) ++
        replaceParamsGo ids keys fuel pid.getLast? ((c :: rest).drop pid.length)
    | none => c :: replaceParamsGo ids keys fuel (some c) rest

def replaceParams (ids : List Text) (keys : List (Text × Text)) (body : Text) : Text :=
  replaceParamsGo ids keys (body.length + 1) none body

/-- Pre-expansion of the scanned actual arguments (`argKeys` in
`expandFunctionMacro`): each trimmed argument is expanded under the FULL
environment (including the macro being expanded), in order. -/
def buildArgKeys (recur : Macros → Text → PRes Text) (ms : Macros) :
    List (Text × Text) → PRes (List (Text × Text))
  | [] => .ok []
  | (id, a) :: rest =>
    (recur ms (trimJS a)).bind fun v =>
      (buildArgKeys recur ms rest).bind fun vs => .ok ((id, v) :: vs)

/-- The `while ((startMatch = startRegex.exec(current)))` loop of
`expandFunctionMacro`.  `recur` is macro expansion at the enclosing fuel
level; the loop itself also consumes fuel since (as proved below) it does not
terminate on all inputs. -/
def fnLoop (recur : Macros → Text → PRes Text) (ms : Macros) (name : Text)
    (m : MacroDef) : Nat → Text → Text → PRes Text
  | 0, _, _ => .outOfFuel
  | k + 1, expanded, current =>
    match findFnCall name current with
    | none => .ok (expanded ++ current)
    | some (idx, mlen) =>
      match scanFunctionArgs (current.drop (idx + mlen)) with
      | none =>
        .err ((current.drop idx).take mlen ++ " unterminated macro invocation".data)
      | some (args, argLength) =>
        let macroArgs := (m.args.getD []).filter fun a => ! isCommaLit a
        let matchLength := mlen + argLength + 1
        if args.length > macroArgs.length then
          .err (sq :: name ++ sq :: ": Too many arguments for macro".data)
        else if args.length < macroArgs.length then
          .err (sq :: name ++ sq :: ": Not enough arguments for macro".data)
        else
          let argIdentifiers := macroArgs.map identOf
          (buildArgKeys recur ms (argIdentifiers.zip args)).bind fun argKeys =>
          let replacedBody :=
            tokenPaste (replaceParams argIdentifiers argKeys m.body)
          (recur (withoutName ms name) replacedBody).bind fun expandedReplace =>
          let endOfReplace := idx + expandedReplace.length
          let processed :=
            replaceFirstStr current ((current.drop idx).take matchLength)
              expandedReplace
          fnLoop recur ms name m k (expanded ++ processed.take endOfReplace)
            (processed.drop endOfReplace)

/-- Embedding of `expandFunctionMacro`. -/
def expandFunctionMacroF (recur : Macros → Text → PRes Text) (loopFuel : Nat)
    (ms : Macros) (name : Text) (m : MacroDef) (t : Text) : PRes Text :=
  fnLoop recur ms name m loopFuel [] t

/-- Embedding of `expandObjectMacro`: if `\b name \b` occurs, expand the body
under the environment without `name`, substitute it for every word-bounded
occurrence, and token-paste.  (A missing body is the empty string: the source
normalises `null` bodies with `macro.body || ''`.) -/
def expandObjectMacroF (recur : Macros → Text → PRes Text) (ms : Macros)
    (name : Text) (m : MacroDef) (t : Text) : PRes Text :=
  if containsWB name t then
    (recur (withoutName ms name) m.body).bind fun scanned =>
      .ok (tokenPaste (replaceAllWB name scanned t))
  else
    .ok t

/-- The `Object.entries(macros).reduce(...)` fold of `expandMacros`, over the
snapshot `entries` of the environment. -/
def expandEntries (recur : Macros → Text → PRes Text) (loopFuel : Nat)
    (ms : Macros) : List (Text × MacroDef) → Text → PRes Text
  | [], t => .ok t
  | (name, m) :: rest, t =>
    (match m.args with
     | some _ => expandFunctionMacroF recur loopFuel ms name m t
     | none => expandObjectMacroF recur ms name m t).bind
      (expandEntries recur loopFuel ms rest)

/-- Fuel-indexed embedding of `expandMacros`: one unit of fuel is consumed per
nesting level, and the per-call fuel also bounds the iteration count of each
function-macro loop.  A computation of the source that terminates is `.ok`
for every sufficiently large fuel; `.outOfFuel` for every fuel means the
source diverges. -/
def expandMacrosF : Nat → Macros → Text → PRes Text
  | 0, _, _ => .outOfFuel
  | n + 1, ms, t => expandEntries (expandMacrosF n) n ms ms t

/-!
The `#if` / `#elif` expression evaluator.  JavaScript numbers are modelled as
exact rationals plus NaN and signed infinities; for the integer-valued
computations the evaluator performs this is exact (double rounding only
diverges from rationals at magnitudes no preprocessor expression reaches, and
is noted where a deviation is possible, e.g. in decimal printing of
non-terminating fractions).
-/

/-- Exact rational numbers with kernel-computable arithmetic (Mathlib's `Rat`
operations do not reduce under `decide`).  Every operation returns the
normalized representative (positive denominator, coprime), so structural
equality is value equality. -/
structure JRat where
  num : Int
  den : Nat
deriving DecidableEq, Repr

def gcdFuel : Nat → Nat → Nat → Nat
  | 0, a, _ => a
  | f + 1, a, b => if b = 0 then a else gcdFuel f b (a % b)

def gcdN (a b : Nat) : Nat :=
  gcdFuel (b + 1) a b

def JRat.norm (q : JRat) : JRat :=
  if q.num = 0 then ⟨0, 1⟩
  else
    let g := gcdN q.num.natAbs q.den
    ⟨Int.tdiv q.num (Int.ofNat g), q.den / g⟩

def JRat.ofInt (i : Int) : JRat :=
  ⟨i, 1⟩

def JRat.add (a b : JRat) : JRat :=
  JRat.norm ⟨a.num * Int.ofNat b.den + b.num * Int.ofNat a.den, a.den * b.den⟩

def JRat.neg (a : JRat) : JRat :=
  ⟨-a.num, a.den⟩

def JRat.sub (a b : JRat) : JRat :=
  a.add b.neg

def JRat.mul (a b : JRat) : JRat :=
  JRat.norm ⟨a.num * b.num, a.den * b.den⟩

def JRat.div (a b : JRat) : JRat :=
  if b.num < 0 then JRat.norm ⟨-(a.num * Int.ofNat b.den), a.den * b.num.natAbs⟩
  else JRat.norm ⟨a.num * Int.ofNat b.den, a.den * b.num.natAbs⟩

def JRat.blt (a b : JRat) : Bool :=
  a.num * Int.ofNat b.den < b.num * Int.ofNat a.den

/-- Truncation toward zero, as JavaScript ToInt32 and friends require. -/
def JRat.trunc (q : JRat) : Int :=
  Int.tdiv q.num (Int.ofNat q.den)

def JRat.mulNat (a : JRat) (n : Nat) : JRat :=
  JRat.mul a (JRat.ofInt (Int.ofNat n))

def pow10 : Nat → Nat
  | 0 => 1
  | k + 1 => 10 * pow10 k

inductive JNum where
  | fin (q : JRat)
  | inf (neg : Bool)
  | nan
deriving DecidableEq, Repr

inductive JSVal where
  | num (n : JNum)
  | bool (b : Bool)
  | str (s : Text)
deriving DecidableEq, Repr

/-- Numeric value of leading decimal digits, with how much input remains. -/
def takeDigitsGo : Nat → Nat → Text → (Nat × Nat × Text)
  | acc, cnt, [] => (acc, cnt, [])
  | acc, cnt, c :: r =>
    if c.isDigit then takeDigitsGo (acc * 10 + (c.toNat - 48)) (cnt + 1) r
    else (acc, cnt, c :: r)

/-- JavaScript `parseInt(str, 10)`: skip leading whitespace, optional sign,
then as many decimal digits as possible; no digits gives NaN. -/
def parseIntJS (s : Text) : JNum :=
  let core : Text → Bool → JNum := fun r neg =>
    let (v, cnt, _) := takeDigitsGo 0 0 r
    if cnt = 0 then .nan
    else .fin (JRat.ofInt (if neg then -(Int.ofNat v) else Int.ofNat v))
  match s.dropWhile isJsSpace with
  | '-' :: r => core r true
  | '+' :: r => core r false
  | r => core r false

/-- ToNumber on a string: trim; empty is 0; otherwise the whole remainder must
be a signed decimal literal (digits with an optional fraction) or `Infinity`,
else NaN.  (Hex and exponent forms, which no claim exercises, are not
modelled and would be read as NaN here.) -/
def toNumberStr (s : Text) : JNum :=
  let t := trimJS s
  if t = [] then .fin (JRat.ofInt 0)
  else
    let (neg, r) : Bool × Text :=
      match t with
      | '-' :: r => (true, r)
      | '+' :: r => (false, r)
      | r => (false, r)
    if r = "Infinity".data then .inf neg
    else
      let (iv, ic, r1) := takeDigitsGo 0 0 r
      match r1 with
      | [] =>
        if ic = 0 then .nan
        else .fin (JRat.ofInt (if neg then -(Int.ofNat iv) else Int.ofNat iv))
      | '.' :: r2 =>
        let (fv, fc, r3) := takeDigitsGo 0 0 r2
        if r3 = [] ∧ ic + fc ≠ 0 then
          let n : Int := Int.ofNat (iv * pow10 fc + fv)
          .fin (JRat.norm ⟨if neg then -n else n, pow10 fc⟩)
        else .nan
      | _ => .nan

def toNumber : JSVal → JNum
  | .num n => n
  | .bool b => .fin (JRat.ofInt (if b then 1 else 0))
  | .str s => toNumberStr s

/-- JavaScript truthiness (`!!x`): zero, NaN, the empty string and `false`
are falsy. -/
def toBoolean : JSVal → Bool
  | .num (.fin q) => q.num ≠ 0
  | .num (.inf _) => true
  | .num .nan => false
  | .bool b => b
  | .str s => s ≠ []

def JNum.neg : JNum → JNum
  | .fin q => .fin q.neg
  | .inf n => .inf (!n)
  | .nan => .nan

def JNum.add : JNum → JNum → JNum
  | .nan, _ | _, .nan => .nan
  | .fin a, .fin b => .fin (a.add b)
  | .inf n, .fin _ | .fin _, .inf n => .inf n
  | .inf n, .inf m => if n = m then .inf n else .nan

def JNum.sub (a b : JNum) : JNum :=
  a.add b.neg

def JNum.mul : JNum → JNum → JNum
  | .nan, _ | _, .nan => .nan
  | .fin a, .fin b => .fin (a.mul b)
  | .inf n, .fin b | .fin b, .inf n =>
    if b.num = 0 then .nan else .inf (n != decide (b.num < 0))
  | .inf n, .inf m => .inf (n != m)

def JNum.div : JNum → JNum → JNum
  | .nan, _ | _, .nan => .nan
  | .fin a, .fin b =>
    if b.num = 0 then (if a.num = 0 then .nan else .inf (decide (a.num < 0)))
    else .fin (a.div b)
  | .inf n, .fin b => .inf (n != decide (b.num < 0))
  | .fin _, .inf _ => .fin (JRat.ofInt 0)
  | .inf _, .inf _ => .nan

/-- JavaScript `%`: remainder with the dividend's sign (truncating quotient). -/
def JNum.mod : JNum → JNum → JNum
  | .nan, _ | _, .nan => .nan
  | .fin a, .fin b =>
    if b.num = 0 then .nan
    else .fin (a.sub (b.mul (JRat.ofInt (a.div b).trunc)))
  | .inf _, _ => .nan
  | .fin a, .inf _ => .fin a

def JNum.lt : JNum → JNum → Bool
  | .nan, _ | _, .nan => false
  | .fin a, .fin b => a.blt b
  | .inf n, .inf m => n && !m
  | .inf n, .fin _ => n
  | .fin _, .inf m => !m

/-- JavaScript `<=` on numbers: false when either is NaN, else not `>`. -/
def JNum.le (a b : JNum) : Bool :=
  match a, b with
  | .nan, _ | _, .nan => false
  | _, _ => ! JNum.lt b a

def JNum.looseEqNum : JNum → JNum → Bool
  | .nan, _ | _, .nan => false
  | .fin a, .fin b => a = b
  | .inf n, .inf m => n = m
  | _, _ => false

def toInt32 (n : JNum) : Int :=
  match n with
  | .nan | .inf _ => 0
  | .fin q =>
    let m : Int := q.trunc % 4294967296
    if m ≥ 2147483648 then m - 4294967296 else m

def toUint32 (n : JNum) : Int :=
  match n with
  | .nan | .inf _ => 0
  | .fin q => q.trunc % 4294967296

def int32Wrap (i : Int) : Int :=
  let m := i % 4294967296
  if m ≥ 2147483648 then m - 4294967296 else m

/-- Bitwise int32 operations via the unsigned representation. -/
def bitOp32 (f : Nat → Nat → Nat) (a b : JNum) : JNum :=
  let ua := ((toInt32 a) % 4294967296).toNat
  let ub := ((toInt32 b) % 4294967296).toNat
  .fin (JRat.ofInt (int32Wrap (f ua ub)))

/-- JavaScript string comparison, by code unit. -/
def lexLt : Text → Text → Bool
  | [], [] => false
  | [], _ :: _ => true
  | _ :: _, [] => false
  | a :: as, b :: bs =>
    if a.toNat < b.toNat then true
    else if b.toNat < a.toNat then false
    else lexLt as bs

/-- JavaScript loose equality `==` restricted to the primitive values that
occur here. -/
def looseEq : JSVal → JSVal → Bool
  | .bool b, y => JNum.looseEqNum (.fin (JRat.ofInt (if b then 1 else 0))) (toNumber y)
  | x, .bool b => JNum.looseEqNum (toNumber x) (.fin (JRat.ofInt (if b then 1 else 0)))
  | .num a, .num b => JNum.looseEqNum a b
  | .str a, .str b => a = b
  | .num a, .str s => JNum.looseEqNum a (toNumberStr s)
  | .str s, .num b => JNum.looseEqNum (toNumberStr s) b

/-- JavaScript relational comparison (both strings: lexicographic; otherwise
numeric with NaN making every comparison false). -/
def jsLt : JSVal → JSVal → Bool
  | .str a, .str b => lexLt a b
  | a, b => JNum.lt (toNumber a) (toNumber b)

def jsLe : JSVal → JSVal → Bool
  | .str a, .str b => ! lexLt b a
  | a, b => JNum.le (toNumber a) (toNumber b)

/-- Decimal rendering of a natural number. -/
def natToText (n : Nat) : Text :=
  Nat.toDigits 10 n

def intToText (i : Int) : Text :=
  if i < 0 then '-' :: natToText (-i).toNat else natToText i.toNat

/-- Smallest power of ten clearing the denominator, when one of at most
`k` exists. -/
def decExp (q : JRat) : Nat → Option Nat
  | 0 => if q.den = 1 then some 0 else none
  | k + 1 =>
    match decExp q k with
    | some e => some e
    | none => if (q.mulNat (pow10 (k + 1))).den = 1 then some (k + 1) else none

/-- ToString of a finite number.  Exact for integers and finite decimals (the
only values the double-based source can hold); other rationals — which can
only arise here from `/`, where this rational model already departs from
binary doubles — are printed as an exact fraction instead. -/
def ratToText (q : JRat) : Text :=
  if q.den = 1 then intToText q.num
  else
    match decExp q 40 with
    | some k =>
      let n := (q.mulNat (pow10 k)).num
      let sign : Text := if n < 0 then ['-'] else []
      let digs := natToText n.natAbs
      let digs :=
        if digs.length ≤ k then List.replicate (k + 1 - digs.length) '0' ++ digs
        else digs
      sign ++ digs.take (digs.length - k) ++ '.' :: digs.drop (digs.length - k)
    | none => intToText q.num ++ '/' :: intToText (Int.ofNat q.den)

def jnumToText : JNum → Text
  | .nan => "NaN".data
  | .inf true => "-Infinity".data
  | .inf false => "Infinity".data
  | .fin q => ratToText q

def jsToString : JSVal → Text
  | .num n => jnumToText n
  | .bool true => "true".data
  | .bool false => "false".data
  | .str s => s

/-- Evaluation of one (non-short-circuit) binary operator on evaluated
operands, per the `binary` evaluator's `switch`. -/
def applyKnownBinary (lit : Text) (a b : JSVal) : JSVal :=
  if lit = "*".data then .num (JNum.mul (toNumber a) (toNumber b))
  else if lit = "/".data then .num (JNum.div (toNumber a) (toNumber b))
  else if lit = "%".data then .num (JNum.mod (toNumber a) (toNumber b))
  else if lit = "+".data then
    match a, b with
    | .str _, _ | _, .str _ => .str (jsToString a ++ jsToString b)
    | _, _ => .num (JNum.add (toNumber a) (toNumber b))
  else if lit = "-".data then .num (JNum.sub (toNumber a) (toNumber b))
  else if lit = "<<".data then
    .num (.fin (JRat.ofInt (int32Wrap (toInt32 (toNumber a) * 2 ^ ((toUint32 (toNumber b)).toNat % 32)))))
  else if lit = ">>".data then
    .num (.fin (JRat.ofInt (Int.fdiv (toInt32 (toNumber a)) (2 ^ ((toUint32 (toNumber b)).toNat % 32)))))
  else if lit = "<".data then .bool (jsLt a b)
  else if lit = ">".data then .bool (jsLt b a)
  else if lit = "<=".data then .bool (jsLe a b)
  else if lit = ">=".data then .bool (jsLe b a)
  else if lit = "==".data then .bool (looseEq a b)
  else if lit = "!=".data then .bool (! looseEq a b)
  else if lit = "&".data then .num (bitOp32 Nat.land (toNumber a) (toNumber b))
  else if lit = "^".data then .num (bitOp32 Nat.xor (toNumber a) (toNumber b))
  else .num (bitOp32 Nat.lor (toNumber a) (toNumber b))

def knownBinOps : List Text :=
  ["*".data, "/".data, "%".data, "+".data, "-".data, "<<".data, ">>".data,
   "<".data, ">".data, "<=".data, ">=".data, "==".data, "!=".data,
   "&".data, "^".data, "|".data]

/-- Expression AST of `#if` / `#elif` conditions. -/
inductive PExpr where
  | intConst (token : Text)
  | identExpr (s : Text)
  | unaryDefined (idn : Text)
  | group (e : PExpr)
  | unaryExpr (op : Text) (e : PExpr)
  | binaryExpr (op : Text) (l r : PExpr)
deriving DecidableEq, Repr

/-- Embedding of `evaluteExpression` (sic).  `unary_defined` tests its
literal name with the `in` operator (`inOp`); `&&` and `||` short-circuit and
return an operand value; an unknown operator throws without visiting the
operands (they sit inside the `switch` cases). -/
def evaluteExpressionF (ms : Macros) : PExpr → PRes JSVal
  | .intConst tok => .ok (.num (parseIntJS tok))
  | .unaryDefined idn => .ok (.bool (inOp ms idn))
  | .identExpr s => .ok (.str s)
  | .group e => evaluteExpressionF ms e
  | .binaryExpr op l r =>
    if op = "&&".data then
      (evaluteExpressionF ms l).bind fun lv =>
        if toBoolean lv then evaluteExpressionF ms r else .ok lv
    else if op = "||".data then
      (evaluteExpressionF ms l).bind fun lv =>
        if toBoolean lv then .ok lv else evaluteExpressionF ms r
    else if op ∈ knownBinOps then
      (evaluteExpressionF ms l).bind fun lv =>
        (evaluteExpressionF ms r).bind fun rv =>
          .ok (applyKnownBinary op lv rv)
    else
      .err ("Preprocessing error: Unknown binary operator ".data ++ op)
  | .unaryExpr op e =>
    if op = "+".data then evaluteExpressionF ms e
    else if op = "-".data then
      (evaluteExpressionF ms e).bind fun v =>
        .ok (.num (JNum.mul (.fin (JRat.ofInt (-1))) (toNumber v)))
    else if op = "!".data then
      (evaluteExpressionF ms e).bind fun v => .ok (.bool (! toBoolean v))
    else if op = "~".data then
      (evaluteExpressionF ms e).bind fun v =>
        .ok (.num (.fin (JRat.ofInt (-(toInt32 (toNumber v)) - 1))))
    else
      .err ("Preprocessing error: Unknown unary operator ".data ++ op)

/-- Embedding of `expandInExpressions` for one expression: every `identifier`
node's text is replaced by its macro expansion, and `unary_defined` subtrees
are skipped (`path.skip()`), so the identifier under `defined(...)` is left
alone. -/
def expandInExprF (efuel : Nat) (ms : Macros) : PExpr → PRes PExpr
  | .identExpr s => (expandMacrosF efuel ms s).bind fun s2 => .ok (.identExpr s2)
  | .unaryDefined idn => .ok (.unaryDefined idn)
  | .intConst tok => .ok (.intConst tok)
  | .group e => (expandInExprF efuel ms e).bind fun e2 => .ok (.group e2)
  | .unaryExpr op e => (expandInExprF efuel ms e).bind fun e2 => .ok (.unaryExpr op e2)
  | .binaryExpr op l r =>
    (expandInExprF efuel ms l).bind fun l2 =>
      (expandInExprF efuel ms r).bind fun r2 => .ok (.binaryExpr op l2 r2)

/-- Kind of the `ifPart` of a conditional: `#if` (with an expression),
`#ifdef`, or `#ifndef`. -/
inductive IfKind where
  | ifExp (e : PExpr)
  | ifdef (idn : Text)
  | ifndef (idn : Text)
deriving DecidableEq, Repr

/-- Preprocessor program nodes (the `Text` / directive segments of a
`PreprocessorProgram`, and the bodies of conditional parts). -/
inductive PPNode where
  | textN (s : Text)
  | defineN (name : Text) (body : Text)
  | defineArgsN (name : Text) (params : List PNode) (body : Text)
  | undefN (name : Text)
  | conditionalN (ifKind : IfKind) (ifBody : List PPNode)
      (elseIfParts : List (PExpr × List PPNode)) (elsePart : Option (List PPNode))
  | errorN (msg : Text)
  | pragmaN (raw : Text)
  | versionN (raw : Text)
  | extensionN (raw : Text)
  | lineN (raw : Text)

/-- Node types, the keys of the `preserve` policy. -/
inductive NType where
  | textT | defineT | defineArgsT | undefT | conditionalT | errorT
  | pragmaT | versionT | extensionT | lineT
deriving DecidableEq, Repr

def ntypeOf : PPNode → NType
  | .textN _ => .textT
  | .defineN _ _ => .defineT
  | .defineArgsN _ _ _ => .defineArgsT
  | .undefN _ => .undefT
  | .conditionalN _ _ _ _ => .conditionalT
  | .errorN _ => .errorT
  | .pragmaN _ => .pragmaT
  | .versionN _ => .versionT
  | .extensionN _ => .extensionT
  | .lineN _ => .lineT

/-- Options of `preprocessAst` that the walker consults.  `preserve` models a
`NodePreservers` policy as a per-node-type boolean (the source allows a
predicate over the visit path; every policy exercised by the repository is
constant per type). -/
structure PPConfig where
  preserve : NType → Bool
  stopOnError : Bool

/-- Expansion step of `expandInExpressions` applied to the `ifPart`: only an
`If` part has an `.expression` (the `filter(isTruthy)`), so `ifdef` / `ifndef`
identifiers are never expanded. -/
def expandIfKindF (efuel : Nat) (ms : Macros) : IfKind → PRes IfKind
  | .ifExp e => (expandInExprF efuel ms e).bind fun e2 => .ok (.ifExp e2)
  | k => .ok k

/-- Expansion of each `elseIfPart.expression`, in order. -/
def expandElifsF (efuel : Nat) (ms : Macros) :
    List (PExpr × List PPNode) → PRes (List (PExpr × List PPNode))
  | [] => .ok []
  | (e, b) :: rest =>
    (expandInExprF efuel ms e).bind fun e2 =>
      (expandElifsF efuel ms rest).bind fun rest2 => .ok ((e2, b) :: rest2)

/-- Embedding of `evaluateIfPart`: `ifdef` / `ifndef` test the identifier
with the `in` operator (`inOp`), prototype chain included. -/
def evaluateIfPartF (ms : Macros) : IfKind → PRes JSVal
  | .ifExp e => evaluteExpressionF ms e
  | .ifdef idn => .ok (.bool (inOp ms idn))
  | .ifndef idn => .ok (.bool (! inOp ms idn))

/-- The `elseIfParts.reduce` of the conditional handler: evaluate each elif
expression in order; the first truthy one selects its body, and the `||`
short-circuit means the remaining elif expressions are never evaluated. -/
def pickElifF (ms : Macros) :
    List (PExpr × List PPNode) → PRes (Option (List PPNode))
  | [] => .ok none
  | (e, b) :: rest =>
    (evaluteExpressionF ms e).bind fun v =>
      if toBoolean v then .ok (some b) else pickElifF ms rest

/-- Modelled from the spec: the generic AST visitor (`src/ast/visit.ts`) is
not part of the repository sources provided, so the traversal itself follows
§4.5/§4.5.1 of the specification: a single pre-order walk that runs each
node's handler in source order; `replaceWith` on a conditional makes the walk
continue inside the replacement body in place of the conditional, under the
environment established so far, and the environment is never restored.  A
preserved conditional is left unchanged.  The handler bodies themselves are
translated from `preprocessAst` in src/preprocessor/preprocessor.ts.

`ppNodes cfg efuel n ms nodes` returns the rewritten node list, the final
environment, and a trace listing every node the walker processed together
with the environment the walker observed on entering it.  `efuel` is the fuel
given to each macro-expansion call; `n` bounds the number of processed nodes
(the walk recursion itself always terminates, and any `.ok` result is
fuel-independent once `n` is large enough). -/
def ppNodes (cfg : PPConfig) (efuel : Nat) :
    Nat → Macros → List PPNode → PRes (List PPNode × Macros × List (PPNode × Macros))
  | _, ms, [] => .ok ([], ms, [])
  | 0, _, _ :: _ => .outOfFuel
  | n + 1, ms, node :: rest =>
    match node with
    | .textN s =>
      (expandMacrosF efuel ms s).bind fun s2 =>
        (ppNodes cfg efuel n ms rest).bind fun (out, msF, tr) =>
          .ok (.textN s2 :: out, msF, (node, ms) :: tr)
    | .defineN name body =>
      (ppNodes cfg efuel n (defineName ms name ⟨none, body⟩) rest).bind
        fun (out, msF, tr) =>
          .ok ((if cfg.preserve .defineT then [node] else []) ++ out, msF,
            (node, ms) :: tr)
    | .defineArgsN name params body =>
      (ppNodes cfg efuel n (defineName ms name ⟨some params, body⟩) rest).bind
        fun (out, msF, tr) =>
          .ok ((if cfg.preserve .defineArgsT then [node] else []) ++ out, msF,
            (node, ms) :: tr)
    | .undefN name =>
      (ppNodes cfg efuel n (withoutName ms name) rest).bind
        fun (out, msF, tr) =>
          .ok ((if cfg.preserve .undefT then [node] else []) ++ out, msF,
            (node, ms) :: tr)
    | .errorN msg =>
      if cfg.stopOnError then .err msg
      else
        (ppNodes cfg efuel n ms rest).bind fun (out, msF, tr) =>
          .ok ((if cfg.preserve .errorT then [node] else []) ++ out, msF,
            (node, ms) :: tr)
    | .pragmaN _ =>
      (ppNodes cfg efuel n ms rest).bind fun (out, msF, tr) =>
        .ok ((if cfg.preserve .pragmaT then [node] else []) ++ out, msF,
          (node, ms) :: tr)
    | .versionN _ =>
      (ppNodes cfg efuel n ms rest).bind fun (out, msF, tr) =>
        .ok ((if cfg.preserve .versionT then [node] else []) ++ out, msF,
          (node, ms) :: tr)
    | .extensionN _ =>
      (ppNodes cfg efuel n ms rest).bind fun (out, msF, tr) =>
        .ok ((if cfg.preserve .extensionT then [node] else []) ++ out, msF,
          (node, ms) :: tr)
    | .lineN _ =>
      (ppNodes cfg efuel n ms rest).bind fun (out, msF, tr) =>
        .ok ((if cfg.preserve .lineT then [node] else []) ++ out, msF,
          (node, ms) :: tr)
    | .conditionalN ik ib elifs ep =>
      if cfg.preserve .conditionalT then
        (ppNodes cfg efuel n ms rest).bind fun (out, msF, tr) =>
          .ok (node :: out, msF, (node, ms) :: tr)
      else
        (expandIfKindF efuel ms ik).bind fun ik2 =>
          (expandElifsF efuel ms elifs).bind fun elifs2 =>
            (evaluateIfPartF ms ik2).bind fun v =>
              if toBoolean v then
                (ppNodes cfg efuel n ms (ib ++ rest)).bind fun (out, msF, tr) =>
                  .ok (out, msF, (node, ms) :: tr)
              else
                (pickElifF ms elifs2).bind fun ob =>
                  match ob with
                  | some b =>
                    (ppNodes cfg efuel n ms (b ++ rest)).bind fun (out, msF, tr) =>
                      .ok (out, msF, (node, ms) :: tr)
                  | none =>
                    match ep with
                    | some b =>
                      (ppNodes cfg efuel n ms (b ++ rest)).bind fun (out, msF, tr) =>
                        .ok (out, msF, (node, ms) :: tr)
                    | none =>
                      (ppNodes cfg efuel n ms rest).bind fun (out, msF, tr) =>
                        .ok (out, msF, (node, ms) :: tr)

/-- Seeding of the environment from `options.defines`: object-like macros, in
order. -/
def seedDefines (defs : List (Text × Text)) : Macros :=
  defs.foldl (fun ms e => defineName ms e.1 ⟨none, e.2⟩) []

/-- Embedding of `preprocessAst` on a program given as its top-level segment
list. -/
def preprocessAstF (cfg : PPConfig) (efuel nfuel : Nat)
    (defs : List (Text × Text)) (program : List PPNode) : PRes (List PPNode) :=
  (ppNodes cfg efuel nfuel (seedDefines defs) program).bind fun (out, _, _) =>
    .ok out

/-- Modelled from the spec: the source generator that serialises an AST back
to text is an external collaborator (not under the provided sources); for the
programs in the concrete scenarios the output consists of `Text` nodes and
preserved directives carrying their raw text, concatenated in order. -/
def generateF (nodes : List PPNode) : Text :=
  nodes.foldl
    (fun acc node =>
      acc ++
        match node with
        | .textN s => s
        | .defineN _ _ | .defineArgsN _ _ _ | .undefN _ | .errorN _
        | .conditionalN _ _ _ _ => []
        | .pragmaN raw | .versionN raw | .extensionN raw | .lineN raw => raw)
    []

/-- Pure net effect of one processed node on the environment: `#define` and
`#undef` update it, everything else leaves it unchanged (a conditional has no
effect of its own — the directives of the selected branch are processed, and
traced, as nodes in their own right). -/
def dirStep (ms : Macros) : PPNode → Macros
  | .defineN name body => defineName ms name ⟨none, body⟩
  | .defineArgsN name params body => defineName ms name ⟨some params, body⟩
  | .undefN name => withoutName ms name
  | _ => ms

/-!  Supporting lemmas. -/

theorem intercalate_cons_cons (sep x y : Text) (l : List Text) :
    List.intercalate sep (x :: y :: l) = x ++ sep ++ List.intercalate sep (y :: l) := by
  simp [List.intercalate, List.intersperse]

theorem intercalate_single (sep x : Text) :
    List.intercalate sep [x] = x := by
  simp [List.intercalate, List.intersperse]

theorem intercalate_nil (sep : Text) : List.intercalate sep [] = [] := by
  simp [List.intercalate]

theorem intercalate_append_last (sep : Text) (xs : List Text) (a : Text) :
    List.intercalate sep (xs ++ [a]) =
      (if xs = [] then [] else List.intercalate sep xs ++ sep) ++ a := by
  induction xs with
  | nil => simp [intercalate_single]
  | cons x rest ih =>
    cases rest with
    | nil => simp [intercalate_cons_cons, intercalate_single]
    | cons y l =>
      have h1 : (x :: y :: l) ++ [a] = x :: y :: (l ++ [a]) := by simp
      rw [h1, intercalate_cons_cons sep x y (l ++ [a])]
      have h2 : y :: (l ++ [a]) = (y :: l) ++ [a] := by simp
      rw [h2, ih]
      simp [intercalate_cons_cons, List.append_assoc]

/-- Invariant of the argument scanner: starting from a non-negative depth,
a successful scan stops on a `)` (the depth 0 → −1 transition), and the
arguments it has split off, joined back with commas, reproduce exactly the
consumed text. -/
theorem scanArgsGo_spec :
    ∀ (src : Text) (parens : Int) (args : List Text) (arg : Text) (i : Nat)
      (args' : List Text) (len : Nat), 0 ≤ parens →
      scanArgsGo src parens args arg i = some (args', len) →
      i ≤ len ∧ (src.drop (len - i)).head? = some ')' ∧
        List.intercalate [','] args' =
          List.intercalate [','] args ++ (if args = [] then [] else [',']) ++
            arg ++ src.take (len - i) := by
  intro src
  induction src with
  | nil => intro parens args arg i args' len _ h; simp [scanArgsGo] at h
  | cons c rest ih =>
    intro parens args arg i args' len hp h
    rw [scanArgsGo] at h
    set p2 : Int := (if c = ')' then (if c = '(' then parens + 1 else parens) - 1
        else (if c = '(' then parens + 1 else parens)) with hp2def
    by_cases h2 : p2 = -1
    · simp only [h2, if_true, Option.some.injEq, Prod.mk.injEq] at h
      have hc : c = ')' := by
        by_cases hcr : c = ')'
        · exact hcr
        · exfalso
          rw [hp2def] at h2
          rw [if_neg hcr] at h2
          by_cases hcp : c = '('
          · rw [if_pos hcp] at h2; omega
          · rw [if_neg hcp] at h2; omega
      have hlen : len - i = 0 := by omega
      refine ⟨by omega, ?_, ?_⟩
      · simp [hlen, hc, h.2]
      · rw [hlen]
        by_cases hae : arg = [] ∧ args = []
        · rw [if_pos hae] at h
          simp [← h.1, hae.1, hae.2, intercalate_nil]
        · rw [if_neg hae] at h
          rw [← h.1, intercalate_append_last]
          by_cases hargs : args = []
          · simp [hargs, intercalate_nil]
          · simp [hargs, List.append_assoc]
    · rw [if_neg h2] at h
      have hstep : ∀ (args2 : List Text) (arg2 : Text),
          scanArgsGo rest p2 args2 arg2 (i + 1) = some (args', len) →
          0 ≤ p2 →
          i + 1 ≤ len ∧ (rest.drop (len - (i + 1))).head? = some ')' ∧
            List.intercalate [','] args' =
              List.intercalate [','] args2 ++ (if args2 = [] then [] else [',']) ++
                arg2 ++ rest.take (len - (i + 1)) := by
        intro args2 arg2 hgo hp2
        exact ih p2 args2 arg2 (i + 1) args' len hp2 hgo
      by_cases h3 : c = ',' ∧ p2 = 0
      · rw [if_pos h3] at h
        obtain ⟨hle, hhead, hform⟩ := hstep _ _ h (by omega)
        have hdec : len - i = (len - (i + 1)) + 1 := by omega
        refine ⟨by omega, ?_, ?_⟩
        · rw [hdec, List.drop_succ_cons]; exact hhead
        · rw [hdec, List.take_succ_cons, hform, intercalate_append_last, h3.1]
          by_cases hargs : args = []
          · simp [hargs, intercalate_nil]
          · simp [hargs, List.append_assoc]
      · rw [if_neg h3] at h
        have hge : 0 ≤ p2 := by
          rw [hp2def]
          by_cases hcr : c = ')'
          · have hcp : c ≠ '(' := by rw [hcr]; decide
            rw [if_pos hcr, if_neg hcp]
            rw [hp2def, if_pos hcr, if_neg hcp] at h2
            omega
          · rw [if_neg hcr]
            by_cases hcp : c = '('
            · rw [if_pos hcp]; omega
            · rw [if_neg hcp]; omega
        obtain ⟨hle, hhead, hform⟩ := hstep _ _ h hge
        have hdec : len - i = (len - (i + 1)) + 1 := by omega
        refine ⟨by omega, ?_, ?_⟩
        · rw [hdec, List.drop_succ_cons]; exact hhead
        · rw [hdec, List.take_succ_cons, hform]
          simp [List.append_assoc]

theorem scanFunctionArgs_spec {src : Text} {args : List Text} {len : Nat}
    (h : scanFunctionArgs src = some (args, len)) :
    (src.drop len).head? = some ')' ∧ src.take len = List.intercalate [','] args := by
  obtain ⟨_, hhead, hform⟩ :=
    scanArgsGo_spec src 0 [] [] 0 args len (by omega) h
  simp only [Nat.sub_zero] at hhead hform
  rw [intercalate_nil] at hform
  simp only [List.nil_append, if_pos rfl] at hform
  exact ⟨hhead, hform.symm⟩

theorem getSubstitution_cons_ne {c : Char} (m b a : Text) (rest : Text) (h : c ≠ '$') :
    getSubstitution m b a (c :: rest) = c :: getSubstitution m b a rest := by
  cases rest with
  | nil => simp [getSubstitution, h]
  | cons d r => simp [getSubstitution, h]

theorem getSubstitution_no_dollar (m b a : Text) :
    ∀ (repl : Text), '$' ∉ repl → getSubstitution m b a repl = repl := by
  intro repl
  induction repl with
  | nil => intro _; rfl
  | cons c rest ih =>
    intro h
    have hc : c ≠ '$' := fun hh => h (hh ▸ List.mem_cons_self c rest)
    have hrest : '$' ∉ rest := fun hm => h (List.mem_cons_of_mem c hm)
    rw [getSubstitution_cons_ne m b a rest hc, ih hrest]

/-- The all-false preservation policy (the default `preprocessAst` options). -/
def cfgNone : PPConfig :=
  ⟨fun _ => false, false⟩

theorem expandEntries_no_occurrence (recur : Macros → Text → PRes Text)
    (lf : Nat) (ms : Macros) (t : Text) :
    ∀ (entries : List (Text × MacroDef)),
      (∀ p ∈ entries, p.2.args = none ∧ containsWB p.1 t = false) →
      expandEntries recur lf ms entries t = .ok t := by
  intro entries
  induction entries with
  | nil => intro _; rfl
  | cons e rest ih =>
    intro h
    obtain ⟨hargs, hocc⟩ := h e (List.mem_cons_self e rest)
    obtain ⟨name, m⟩ := e
    rw [expandEntries]
    simp only at hargs hocc
    rw [hargs]
    rw [expandObjectMacroF, hocc]
    simp only [Bool.false_eq_true, if_false]
    rw [PRes.bind]
    exact ih fun p hp => h p (List.mem_cons_of_mem _ hp)

theorem seedDefines_object_only (defs : List (Text × Text)) :
    ∀ p ∈ seedDefines defs, p.2.args = none := by
  have hgen : ∀ (l : List (Text × Text)) (acc : Macros),
      (∀ p ∈ acc, p.2.args = none) →
      ∀ p ∈ l.foldl (fun ms e => defineName ms e.1 ⟨none, e.2⟩) acc, p.2.args = none := by
    intro l
    induction l with
    | nil => intro acc hacc; simp only [List.foldl_nil]; exact hacc
    | cons e rest ih =>
      intro acc hacc
      refine ih (defineName acc e.1 ⟨none, e.2⟩) ?_
      intro p hp
      rw [defineName] at hp
      by_cases hh : hasName acc e.1 = true
      · rw [if_pos hh] at hp
        obtain ⟨q, hq, hpq⟩ := List.mem_map.mp hp
        by_cases hq1 : q.1 = e.1
        · rw [if_pos hq1] at hpq; rw [← hpq]
        · rw [if_neg hq1] at hpq; rw [← hpq]; exact hacc q hq
      · rw [if_neg hh] at hp
        rcases List.mem_append.mp hp with hp1 | hp2
        · exact hacc p hp1
        · rcases List.mem_singleton.mp hp2 with rfl; rfl
  exact hgen defs [] (by intro p hp; simp at hp)

/-- C8: expansion leaves text without any word-bounded occurrence of a
defined (object-like) name byte-identical. -/
theorem expandMacrosF_no_occurrence (ms : Macros) (t : Text) (n : Nat)
    (hobj : ∀ p ∈ ms, p.2.args = none)
    (hocc : ∀ p ∈ ms, containsWB p.1 t = false) :
    expandMacrosF (n + 1) ms t = .ok t := by
  rw [expandMacrosF]
  exact expandEntries_no_occurrence _ n ms t ms fun p hp => ⟨hobj p hp, hocc p hp⟩

/-!  Claim theorems. -/

/-- C4: the function-macro argument scanner, started just after the opening
paren, balances parentheses and splits arguments at top-level commas: a
successful scan always stops on the closing `)` and the scanned arguments,
joined back with commas, reproduce the consumed text exactly; `M()` yields
zero arguments, `M(,)` two empty arguments, `M(a)` one argument; and when the
input ends with the parens unbalanced, expansion fails with the matched text
followed by ` unterminated macro invocation` (shown both in general and on
the repository's own test program). -/
theorem c4_scanFunctionArgs :
    (∀ (src : Text) (args : List Text) (len : Nat),
        scanFunctionArgs src = some (args, len) →
        (src.drop len).head? = some ')' ∧ src.take len = List.intercalate [','] args) ∧
    scanFunctionArgs ")".data = some ([], 0) ∧
    scanFunctionArgs ",)".data = some ([[], []], 1) ∧
    scanFunctionArgs "a)".data = some (["a".data], 1) ∧
    (∀ (recur : Macros → Text → PRes Text) (k : Nat) (ms : Macros) (name : Text)
        (m : MacroDef) (t : Text) (idx mlen : Nat),
        findFnCall name t = some (idx, mlen) →
        scanFunctionArgs (t.drop (idx + mlen)) = none →
        expandFunctionMacroF recur (k + 1) ms name m t =
          .err ((t.drop idx).take mlen ++ " unterminated macro invocation".data)) ∧
    expandMacrosF 6 [("foo".data, ⟨some [], "yes expand".data⟩)]
        ('\n' :: "foo(".data ++ '\n' :: "foo()".data) =
      .err ("foo(".data ++ " unterminated macro invocation".data) := by
  refine ⟨fun src args len h => scanFunctionArgs_spec h, by decide, by decide, by decide,
    ?_, by decide⟩
  intro recur k ms name m t idx mlen hfind hscan
  simp only [expandFunctionMacroF, fnLoop, hfind, hscan]

/-- C4 witness: the general conjuncts instantiated at concrete inputs
(`x,(a,b),y)` for the reconstruction property, `foo(` for the unterminated
error). -/
theorem c4_scanFunctionArgs_witness :
    (("x,(a,b),y)".data.drop 9).head? = some ')' ∧
      "x,(a,b),y)".data.take 9 =
        List.intercalate [','] ["x".data, "(a,b)".data, "y".data]) ∧
    expandFunctionMacroF (fun _ t => .ok t) 3 [] "foo".data ⟨some [], []⟩ "foo(".data =
      .err ("foo(".data ++ " unterminated macro invocation".data) := by
  constructor
  · exact c4_scanFunctionArgs.1 "x,(a,b),y)".data ["x".data, "(a,b)".data, "y".data] 9
      (by decide)
  · exact c4_scanFunctionArgs.2.2.2.2.1 (fun _ t => .ok t) 2 [] "foo".data
      ⟨some [], []⟩ "foo(".data 0 4 (by decide) (by decide)

/-- C5: for a located function-macro call, with `actual` the scanned argument
list and `formal` the parameter list with comma literals filtered out,
expansion fails with exactly `'M': Too many arguments for macro` when there
are more actuals than formals and `'M': Not enough arguments for macro` when
there are fewer; and the walker raises the former on
`#define foo( a, b ) a + b` followed by `foo(1,2,3)`. -/
theorem c5_macroArity :
    (∀ (recur : Macros → Text → PRes Text) (k : Nat) (ms : Macros) (name : Text)
        (m : MacroDef) (t : Text) (idx mlen : Nat) (args : List Text) (argLength : Nat),
        findFnCall name t = some (idx, mlen) →
        scanFunctionArgs (t.drop (idx + mlen)) = some (args, argLength) →
        ((m.args.getD []).filter (fun a => ! isCommaLit a)).length < args.length →
        expandFunctionMacroF recur (k + 1) ms name m t =
          .err (sq :: name ++ sq :: ": Too many arguments for macro".data)) ∧
    (∀ (recur : Macros → Text → PRes Text) (k : Nat) (ms : Macros) (name : Text)
        (m : MacroDef) (t : Text) (idx mlen : Nat) (args : List Text) (argLength : Nat),
        findFnCall name t = some (idx, mlen) →
        scanFunctionArgs (t.drop (idx + mlen)) = some (args, argLength) →
        args.length < ((m.args.getD []).filter (fun a => ! isCommaLit a)).length →
        expandFunctionMacroF recur (k + 1) ms name m t =
          .err (sq :: name ++ sq :: ": Not enough arguments for macro".data)) ∧
    preprocessAstF cfgNone 6 10 []
        [.defineArgsN "foo".data [.ident "a".data, .lit [','], .ident "b".data]
           "a + b".data,
         .textN "foo(1,2,3)".data] =
      .err (sq :: "foo".data ++ sq :: ": Too many arguments for macro".data) := by
  refine ⟨?_, ?_, by rfl⟩
  · intro recur k ms name m t idx mlen args argLength hfind hscan hgt
    simp only [expandFunctionMacroF, fnLoop, hfind, hscan, gt_iff_lt, hgt, if_true]
  · intro recur k ms name m t idx mlen args argLength hfind hscan hlt
    have hngt : ¬ ((m.args.getD []).filter (fun a => ! isCommaLit a)).length < args.length := by
      omega
    simp only [expandFunctionMacroF, fnLoop, hfind, hscan, gt_iff_lt, hngt, if_false,
      hlt, if_true]

/-- C5 witness: both arity errors instantiated on concrete calls of
`#define foo( a, b ) a + b`. -/
theorem c5_macroArity_witness :
    expandFunctionMacroF (fun _ t => .ok t) 3 [] "foo".data
        ⟨some [.ident "a".data, .lit [','], .ident "b".data], "a + b".data⟩
        "foo(1,2,3)".data =
      .err (sq :: "foo".data ++ sq :: ": Too many arguments for macro".data) ∧
    expandFunctionMacroF (fun _ t => .ok t) 3 [] "foo".data
        ⟨some [.ident "a".data, .lit [','], .ident "b".data], "a + b".data⟩
        "foo(1)".data =
      .err (sq :: "foo".data ++ sq :: ": Not enough arguments for macro".data) := by
  constructor
  · exact c5_macroArity.1 (fun _ t => .ok t) 2 [] "foo".data _ "foo(1,2,3)".data
      0 4 ["1".data, "2".data, "3".data] 5 (by decide) (by decide) (by decide)
  · exact c5_macroArity.2.1 (fun _ t => .ok t) 2 [] "foo".data _ "foo(1)".data
      0 4 ["1".data] 1 (by decide) (by decide) (by decide)

/-- C10: a function-like macro declared with zero parameters, invoked as
`M( )` (whitespace between the parens), makes the scanner yield one
whitespace-only argument, so expansion fails with
`'M': Too many arguments for macro`, while `M()` succeeds with zero
arguments. -/
theorem c10_whitespaceOnlyArg :
    scanFunctionArgs " )".data = some ([" ".data], 1) ∧
    scanFunctionArgs ")".data = some ([], 0) ∧
    expandMacrosF 6 [("M".data, ⟨some [], "yes".data⟩)] "M( )".data =
      .err (sq :: "M".data ++ sq :: ": Too many arguments for macro".data) ∧
    expandMacrosF 6 [("M".data, ⟨some [], "yes".data⟩)] "M()".data = .ok "yes".data := by
  exact ⟨by decide, by decide, by decide, by decide⟩

/-- C9 counterexample: the expansion string is NOT inserted verbatim when it
contains `$` sequences: with `M` defined as the body `$&`, expanding the text
`M` yields `M` (the matched text), not the body `$&`. -/
theorem c9_dollarVerbatim_counterexample :
    expandMacrosF 3 [("M".data, ⟨none, "$&".data⟩)] "M".data = .ok "M".data ∧
    "M".data ≠ "$&".data := by
  exact ⟨by decide, by decide⟩

/-- C9 amended: a computed expansion is inserted through JavaScript
`String.replace` substitution semantics: `$$` inserts a dollar, `$&` the
matched text, a dollar-backquote the text before the match, a
dollar-apostrophe the text after the match, while other `$` sequences such as
`$1` stay literal (the patterns have no capture groups); an expansion that
contains no `$` at all is inserted verbatim. -/
theorem c9_dollarSubstitution :
    (∀ (matched before after repl : Text), '$' ∉ repl →
        getSubstitution matched before after repl = repl) ∧
    expandMacrosF 3 [("M".data, ⟨none, "$&".data⟩)] "M".data = .ok "M".data ∧
    expandMacrosF 3 [("M".data, ⟨none, '[' :: '$' :: sq :: "]".data⟩)] "a M b".data =
      .ok "a [ b] b".data ∧
    expandMacrosF 3 [("M".data, ⟨none, '[' :: '$' :: bq :: "]".data⟩)] "a M b".data =
      .ok "a [a ] b".data ∧
    expandMacrosF 3 [("M".data, ⟨none, "$$".data⟩)] "a M b".data = .ok "a $ b".data ∧
    expandMacrosF 3 [("M".data, ⟨none, "$1".data⟩)] "a M b".data = .ok "a $1 b".data ∧
    expandMacrosF 6 [("F".data, ⟨some [.ident "x".data], "<$&>".data⟩)] "F(1)".data =
      .ok "<F(1)>".data := by
  exact ⟨getSubstitution_no_dollar, by decide, by decide, by decide, by decide,
    by decide, by decide⟩

/-- C9 amended witness: the no-dollar conjunct instantiated concretely. -/
theorem c9_dollarSubstitution_witness :
    getSubstitution "M".data "a ".data " b".data "xy".data = "xy".data := by
  exact c9_dollarSubstitution.1 "M".data "a ".data " b".data "xy".data (by decide)

/-- C8: preprocessing is the identity on macro-free text: if a text contains
no word-bounded occurrence of any defined name, `expandMacros` under an
object-like (caller-seeded) environment returns it byte-identical, and the
walker maps a directive-free program consisting of that text to itself. -/
theorem c8_idempotentOnMacroFreeText :
    (∀ (ms : Macros) (t : Text) (n : Nat),
        (∀ p ∈ ms, p.2.args = none) →
        (∀ p ∈ ms, containsWB p.1 t = false) →
        expandMacrosF (n + 1) ms t = .ok t) ∧
    (∀ (defs : List (Text × Text)) (t : Text) (efuel nfuel : Nat) (cfg : PPConfig),
        (∀ p ∈ seedDefines defs, containsWB p.1 t = false) →
        preprocessAstF cfg (efuel + 1) (nfuel + 1) defs [.textN t] = .ok [.textN t]) := by
  constructor
  · exact expandMacrosF_no_occurrence
  · intro defs t efuel nfuel cfg hocc
    have hexp := expandMacrosF_no_occurrence (seedDefines defs) t efuel
      (seedDefines_object_only defs) hocc
    rw [preprocessAstF, ppNodes, hexp, PRes.bind, ppNodes, PRes.bind, PRes.bind]

/-- C8 witness: a seeded define (`PI`) whose name does not occur word-bounded
in the text (`float PIX = 1.0;`) leaves both the expansion and the whole
preprocess output unchanged. -/
theorem c8_idempotentOnMacroFreeText_witness :
    expandMacrosF 1 (seedDefines [("PI".data, "3.14".data)]) "float PIX = 1.0;".data =
      .ok "float PIX = 1.0;".data ∧
    preprocessAstF cfgNone 1 1 [("PI".data, "3.14".data)]
        [.textN "float PIX = 1.0;".data] =
      .ok [.textN "float PIX = 1.0;".data] := by
  constructor
  · exact c8_idempotentOnMacroFreeText.1 (seedDefines [("PI".data, "3.14".data)])
      "float PIX = 1.0;".data 0 (seedDefines_object_only _) (by decide)
  · exact c8_idempotentOnMacroFreeText.2 [("PI".data, "3.14".data)]
      "float PIX = 1.0;".data 0 0 cfgNone (by decide)

theorem dropWhile_append_all (p : Char → Bool) :
    ∀ (w x : Text), (∀ c ∈ w, p c = true) → (w ++ x).dropWhile p = x.dropWhile p := by
  intro w
  induction w with
  | nil => intro x _; rfl
  | cons c cs ih =>
    intro x hw
    have hc : p c = true := hw c (List.mem_cons_self c cs)
    rw [List.cons_append, List.dropWhile_cons, hc]
    simp only [if_true]
    exact ih x fun d hd => hw d (List.mem_cons_of_mem c hd)

theorem dropWhile_head_false (p : Char → Bool) (x : Text)
    (hx : ∀ c, x.head? = some c → p c = false) : x.dropWhile p = x := by
  cases x with
  | nil => rfl
  | cons c cs =>
    have hc : p c = false := hx c rfl
    rw [List.dropWhile_cons, hc]
    simp

theorem takeWhile_append_ne_nil (p : Char → Bool) (w x : Text)
    (hw : w ≠ []) (hws : ∀ c ∈ w, p c = true) : (w ++ x).takeWhile p ≠ [] := by
  cases w with
  | nil => exact absurd rfl hw
  | cons c cs =>
    have hc : p c = true := hws c (List.mem_cons_self c cs)
    rw [List.cons_append, List.takeWhile_cons, hc]
    simp

theorem tokenPasteGo_fuel_irrel :
    ∀ (f1 : Nat) (s : Text) (f2 : Nat), s.length < f1 → s.length < f2 →
      tokenPasteGo f1 s = tokenPasteGo f2 s := by
  intro f1
  induction f1 with
  | zero => intro s f2 h1 _; omega
  | succ k ih =>
    intro s f2 h1 h2
    cases f2 with
    | zero => omega
    | succ j =>
      cases s with
      | nil => rfl
      | cons c r =>
        by_cases hc : isJsSpace c = true
        · have hrlen : ((c :: r).dropWhile isJsSpace).length ≤ r.length := by
            rw [List.dropWhile_cons, hc]
            simp only [if_true]
            exact length_dropWhile_le isJsSpace r
          by_cases hm : ((c :: r).dropWhile isJsSpace).take 2 = "##".data ∧
              (((c :: r).dropWhile isJsSpace).drop 2).takeWhile isJsSpace ≠ []
          · have hred1 : tokenPasteGo (k + 1) (c :: r) =
                tokenPasteGo k ((((c :: r).dropWhile isJsSpace).drop 2).dropWhile isJsSpace) := by
              rw [tokenPasteGo]
              simp only [hc, if_true]
              rw [if_pos hm]
            have hred2 : tokenPasteGo (j + 1) (c :: r) =
                tokenPasteGo j ((((c :: r).dropWhile isJsSpace).drop 2).dropWhile isJsSpace) := by
              rw [tokenPasteGo]
              simp only [hc, if_true]
              rw [if_pos hm]
            rw [hred1, hred2]
            have hlen : ((((c :: r).dropWhile isJsSpace).drop 2).dropWhile isJsSpace).length ≤
                r.length := by
              have ha := length_dropWhile_le isJsSpace (((c :: r).dropWhile isJsSpace).drop 2)
              have hb : (((c :: r).dropWhile isJsSpace).drop 2).length ≤
                  ((c :: r).dropWhile isJsSpace).length := by
                simp only [List.length_drop]; omega
              omega
            apply ih
            · simp only [List.length_cons] at h1; omega
            · simp only [List.length_cons] at h2; omega
          · have hred1 : tokenPasteGo (k + 1) (c :: r) = c :: tokenPasteGo k r := by
              rw [tokenPasteGo]
              simp only [hc, if_true]
              rw [if_neg hm]
            have hred2 : tokenPasteGo (j + 1) (c :: r) = c :: tokenPasteGo j r := by
              rw [tokenPasteGo]
              simp only [hc, if_true]
              rw [if_neg hm]
            rw [hred1, hred2]
            have := ih r j (by simp only [List.length_cons] at h1; omega)
              (by simp only [List.length_cons] at h2; omega)
            rw [this]
        · have hred1 : tokenPasteGo (k + 1) (c :: r) = c :: tokenPasteGo k r := by
            rw [tokenPasteGo]
            simp only [hc, Bool.false_eq_true, if_false]
          have hred2 : tokenPasteGo (j + 1) (c :: r) = c :: tokenPasteGo j r := by
            rw [tokenPasteGo]
            simp only [hc, Bool.false_eq_true, if_false]
          rw [hred1, hred2]
          have := ih r j (by simp only [List.length_cons] at h1; omega)
            (by simp only [List.length_cons] at h2; omega)
          rw [this]

theorem tokenPasteGo_eq_tokenPaste (f : Nat) (s : Text) (h : s.length < f) :
    tokenPasteGo f s = tokenPaste s := by
  rw [tokenPaste]
  exact tokenPasteGo_fuel_irrel f s (s.length + 1) h (by omega)

/-- One whitespace-##-whitespace occurrence collapses to nothing, and the
scan continues after the consumed trailing whitespace. -/
theorem tokenPaste_collapse (a ws1 ws2 b : Text)
    (ha : ∀ c ∈ a, isJsSpace c = false)
    (hw1 : ws1 ≠ []) (hw1s : ∀ c ∈ ws1, isJsSpace c = true)
    (hw2 : ws2 ≠ []) (hw2s : ∀ c ∈ ws2, isJsSpace c = true)
    (hb : ∀ c, b.head? = some c → isJsSpace c = false) :
    tokenPaste (a ++ (ws1 ++ ('#' :: '#' :: (ws2 ++ b)))) = a ++ tokenPaste b := by
  induction a with
  | nil =>
    simp only [List.nil_append]
    cases ws1 with
    | nil => exact absurd rfl hw1
    | cons w ws1t =>
      have hw : isJsSpace w = true := hw1s w (List.mem_cons_self w ws1t)
      have hw1t : ∀ c ∈ ws1t, isJsSpace c = true :=
        fun c hc => hw1s c (List.mem_cons_of_mem w hc)
      rw [List.cons_append]
      have hdw : (w :: (ws1t ++ ('#' :: '#' :: (ws2 ++ b)))).dropWhile isJsSpace =
          '#' :: '#' :: (ws2 ++ b) := by
        rw [List.dropWhile_cons, hw]
        simp only [if_true]
        rw [dropWhile_append_all isJsSpace ws1t ('#' :: '#' :: (ws2 ++ b)) hw1t]
        rw [List.dropWhile_cons]
        have hsharp : isJsSpace '#' = false := by decide
        rw [hsharp]
        simp
      have hcond : ((w :: (ws1t ++ ('#' :: '#' :: (ws2 ++ b)))).dropWhile isJsSpace).take 2 =
            "##".data ∧
          (((w :: (ws1t ++ ('#' :: '#' :: (ws2 ++ b)))).dropWhile isJsSpace).drop 2).takeWhile
            isJsSpace ≠ [] := by
        rw [hdw]
        refine ⟨rfl, ?_⟩
        simp only [List.drop_succ_cons, List.drop_zero]
        exact takeWhile_append_ne_nil isJsSpace ws2 b hw2 hw2s
      rw [tokenPaste, List.length_cons, tokenPasteGo]
      simp only [hw, if_true]
      rw [if_pos hcond, hdw]
      simp only [List.drop_succ_cons, List.drop_zero]
      rw [dropWhile_append_all isJsSpace ws2 b hw2s,
        dropWhile_head_false isJsSpace b hb]
      apply tokenPasteGo_eq_tokenPaste
      simp only [List.length_append, List.length_cons]
      omega
  | cons c a2 ih =>
    have hc : isJsSpace c = false := ha c (List.mem_cons_self c a2)
    have hrest2 : ∀ d ∈ a2, isJsSpace d = false :=
      fun d hd => ha d (List.mem_cons_of_mem c hd)
    rw [List.cons_append, tokenPaste, List.length_cons, tokenPasteGo]
    simp only [hc, Bool.false_eq_true, if_false]
    rw [tokenPasteGo_eq_tokenPaste _ _ (by omega)]
    rw [ih hrest2]
    simp

/-- C7: after macro substitution, token-pasting collapses each
whitespace-`##`-whitespace occurrence to the empty string (the general
collapse law for one occurrence, with the scan continuing after it), and the
`COMMAND(NAME)` scenario produces exactly the expected pasted text. -/
theorem c7_tokenPasting :
    (∀ (a ws1 ws2 b : Text), (∀ c ∈ a, isJsSpace c = false) → ws1 ≠ [] →
        (∀ c ∈ ws1, isJsSpace c = true) → ws2 ≠ [] →
        (∀ c ∈ ws2, isJsSpace c = true) →
        (∀ c, b.head? = some c → isJsSpace c = false) →
        tokenPaste (a ++ (ws1 ++ ('#' :: '#' :: (ws2 ++ b)))) = a ++ tokenPaste b) ∧
    expandMacrosF 4
        [("COMMAND".data,
          ⟨some [.ident "NAME".data],
           '\x7b' :: " NAME, NAME ## _command ## x ## y ".data ++ ['\x7d']⟩)]
        ('\n' :: "COMMAND(x)".data) =
      .ok ('\n' :: '\x7b' :: " x, x_commandxy ".data ++ ['\x7d']) ∧
    preprocessAstF cfgNone 6 10 []
        [.defineArgsN "COMMAND".data [.ident "NAME".data]
           ('\x7b' :: " NAME, NAME ## _command ## x ## y ".data ++ ['\x7d']),
         .textN ('\n' :: "COMMAND(x)".data)] =
      .ok [.textN ('\n' :: '\x7b' :: " x, x_commandxy ".data ++ ['\x7d'])] ∧
    generateF [.textN ('\n' :: '\x7b' :: " x, x_commandxy ".data ++ ['\x7d'])] =
      '\n' :: '\x7b' :: " x, x_commandxy ".data ++ ['\x7d'] := by
  exact ⟨tokenPaste_collapse, by decide, by rfl, by rfl⟩

/-- C7 witness: the collapse law instantiated on `x ## y`. -/
theorem c7_tokenPasting_witness :
    tokenPaste ("x".data ++ (" ".data ++ ('#' :: '#' :: (" ".data ++ "y".data)))) =
      "x".data ++ tokenPaste "y".data := by
  exact c7_tokenPasting.1 "x".data " ".data " ".data "y".data (by decide) (by decide)
    (by decide) (by decide) (by decide) (by decide)

/-- Multiset-free view of the `defined(...)` operands of an expression. -/
def definedNames : PExpr → List Text
  | .intConst _ => []
  | .identExpr _ => []
  | .unaryDefined X => [X]
  | .group e => definedNames e
  | .unaryExpr _ e => definedNames e
  | .binaryExpr _ l r => definedNames l ++ definedNames r

/-- The `Object.prototype` name tested by the C6 counterexample. -/
def valueOfT : Text := "valueOf".data

/-- C6 counterexample: `defined(X)` does not evaluate to whether the literal
name `X` is defined in the environment.  The source tests the name with the
JavaScript `in` operator on a plain object, which consults the prototype
chain: under the EMPTY environment, `defined(toString)` evaluates to true
even though `toString` is not a key of the environment, and `#undef valueOf`
cannot make `#ifdef valueOf` false. -/
theorem c6_definedEnvOnly_counterexample :
    evaluteExpressionF [] (.unaryDefined "toString".data) = .ok (.bool true) ∧
    hasName [] "toString".data = false ∧
    evaluateIfPartF
        (withoutName [("valueOf".data, MacroDef.mk none "1".data)] "valueOf".data)
        (.ifdef valueOfT) = .ok (.bool true) ∧
    hasName
        (withoutName [("valueOf".data, MacroDef.mk none "1".data)] "valueOf".data)
        "valueOf".data = false := by
  exact ⟨rfl, rfl, rfl, rfl⟩

/-- C6 (amended): before a conditional expression is evaluated, every
`identifier` node's text is replaced by its macro expansion while
`unary_defined` subtrees are skipped wholesale (their operand lists are
preserved verbatim anywhere in the expression); `defined(X)` tests the
literal name `X`, never its expansion, but with the JavaScript `in` operator:
it is true exactly when `X` is a key of the environment or a property name of
`Object.prototype` — demonstrated concretely by `#define X 0` followed by
`#if defined(X)`, which selects the branch even though the expansion `0` is
falsy. -/
theorem c6_definedSkipped :
    (∀ (efuel : Nat) (ms : Macros) (e e2 : PExpr),
        expandInExprF efuel ms e = .ok e2 → definedNames e2 = definedNames e) ∧
    (∀ (efuel : Nat) (ms : Macros) (X : Text),
        expandInExprF efuel ms (.unaryDefined X) = .ok (.unaryDefined X)) ∧
    (∀ (efuel : Nat) (ms : Macros) (s : Text),
        expandInExprF efuel ms (.identExpr s) =
          (expandMacrosF efuel ms s).bind fun s2 => .ok (.identExpr s2)) ∧
    (∀ (ms : Macros) (X : Text),
        evaluteExpressionF ms (.unaryDefined X) = .ok (.bool (inOp ms X)) ∧
        inOp ms X = (hasName ms X || objectProtoKeys.contains X)) ∧
    preprocessAstF cfgNone 5 10 []
        [.defineN "X".data "0".data,
         .conditionalN (.ifExp (.unaryDefined "X".data)) [.textN "yes".data] [] none] =
      .ok [.textN "yes".data] := by
  refine ⟨?_, fun _ _ _ => rfl, fun _ _ _ => rfl, fun _ _ => ⟨rfl, rfl⟩, by rfl⟩
  intro efuel ms e
  induction e with
  | intConst tok =>
    intro e2 h
    rw [expandInExprF] at h
    cases h
    rfl
  | identExpr s =>
    intro e2 h
    rw [expandInExprF] at h
    obtain ⟨s2, _, h2⟩ := PRes.bind_eq_ok h
    cases h2
    rfl
  | unaryDefined X =>
    intro e2 h
    rw [expandInExprF] at h
    cases h
    rfl
  | group e ih =>
    intro e2 h
    rw [expandInExprF] at h
    obtain ⟨g2, hg, h2⟩ := PRes.bind_eq_ok h
    cases h2
    simp only [definedNames]
    exact ih g2 hg
  | unaryExpr op e ih =>
    intro e2 h
    rw [expandInExprF] at h
    obtain ⟨g2, hg, h2⟩ := PRes.bind_eq_ok h
    cases h2
    simp only [definedNames]
    exact ih g2 hg
  | binaryExpr op l r ihl ihr =>
    intro e2 h
    rw [expandInExprF] at h
    obtain ⟨l2, hl, h2⟩ := PRes.bind_eq_ok h
    obtain ⟨r2, hr, h3⟩ := PRes.bind_eq_ok h2
    cases h3
    simp only [definedNames]
    rw [ihl l2 hl, ihr r2 hr]

/-- C6 witness: the preservation of `defined` operands instantiated on
`defined(A) && A` under an environment defining `A`: the identifier operand
is expanded but the `defined` operand is not. -/
theorem c6_definedSkipped_witness :
    definedNames (.binaryExpr "&&".data (.unaryDefined "A".data) (.identExpr "1".data)) =
      definedNames (.binaryExpr "&&".data (.unaryDefined "A".data) (.identExpr "A".data)) := by
  exact c6_definedSkipped.1 2 [("A".data, ⟨none, "1".data⟩)]
    (.binaryExpr "&&".data (.unaryDefined "A".data) (.identExpr "A".data))
    (.binaryExpr "&&".data (.unaryDefined "A".data) (.identExpr "1".data)) (by decide)

/-!  Walker trace invariant (C2) and conditional selection (C3). -/

theorem trace_cons_invariant {node : PPNode} {ms msF : Macros}
    {tr2 : List (PPNode × Macros)}
    (h1 : ∀ k (hk : k < tr2.length),
        (tr2.get ⟨k, hk⟩).2 = ((tr2.take k).map Prod.fst).foldl dirStep (dirStep ms node))
    (h2 : msF = (tr2.map Prod.fst).foldl dirStep (dirStep ms node)) :
    (∀ k (hk : k < ((node, ms) :: tr2).length),
        (((node, ms) :: tr2).get ⟨k, hk⟩).2 =
          ((((node, ms) :: tr2).take k).map Prod.fst).foldl dirStep ms) ∧
    msF = (((node, ms) :: tr2).map Prod.fst).foldl dirStep ms := by
  constructor
  · intro k hk
    cases k with
    | zero => rfl
    | succ k2 =>
      simp only [List.get_cons_succ, List.take_succ_cons, List.map_cons, List.foldl_cons]
      exact h1 k2 (by simpa using hk)
  · simp only [List.map_cons, List.foldl_cons]
    exact h2

/-- C2: the environment the walker observes on entering any processed node is
exactly the net effect of the define and undef directives it processed
strictly before that node (in the pre-order source walk, conditionals
contributing only through the nodes of their selected branch), starting from
the caller-seeded environment, and the final environment is the net effect of
the whole walk - in particular nothing is ever restored on leaving a
conditional. -/
theorem c2_envNetEffect :
    ∀ (n : Nat) (cfg : PPConfig) (efuel : Nat) (ms : Macros) (nodes out : List PPNode)
      (msF : Macros) (tr : List (PPNode × Macros)),
      ppNodes cfg efuel n ms nodes = .ok (out, msF, tr) →
      (∀ k (hk : k < tr.length),
          (tr.get ⟨k, hk⟩).2 = ((tr.take k).map Prod.fst).foldl dirStep ms) ∧
      msF = (tr.map Prod.fst).foldl dirStep ms := by
  intro n
  induction n with
  | zero =>
    intro cfg efuel ms nodes out msF tr h
    cases nodes with
    | nil =>
      rw [ppNodes] at h
      cases h
      exact ⟨by intro k hk; simp at hk, rfl⟩
    | cons a rest =>
      rw [ppNodes] at h
      cases h
  | succ n2 ih =>
    intro cfg efuel ms nodes out msF tr h
    cases nodes with
    | nil =>
      rw [ppNodes] at h
      cases h
      exact ⟨by intro k hk; simp at hk, rfl⟩
    | cons node rest =>
      cases node with
      | textN s =>
        simp only [ppNodes] at h
        obtain ⟨s2, hs2, h2⟩ := PRes.bind_eq_ok h
        obtain ⟨⟨o2, mf2, tr2⟩, hrec, h3⟩ := PRes.bind_eq_ok h2
        simp only [PRes.ok.injEq, Prod.mk.injEq] at h3
        obtain ⟨h4, h5, h6⟩ := h3
        subst h4 h5 h6
        have ihres := ih cfg efuel ms rest o2 mf2 tr2 hrec
        exact trace_cons_invariant ihres.1 ihres.2
      | defineN name body =>
        simp only [ppNodes] at h
        obtain ⟨⟨o2, mf2, tr2⟩, hrec, h3⟩ := PRes.bind_eq_ok h
        simp only [PRes.ok.injEq, Prod.mk.injEq] at h3
        obtain ⟨h4, h5, h6⟩ := h3
        subst h4 h5 h6
        have ihres := ih cfg efuel _ rest o2 mf2 tr2 hrec
        exact trace_cons_invariant ihres.1 ihres.2
      | defineArgsN name params body =>
        simp only [ppNodes] at h
        obtain ⟨⟨o2, mf2, tr2⟩, hrec, h3⟩ := PRes.bind_eq_ok h
        simp only [PRes.ok.injEq, Prod.mk.injEq] at h3
        obtain ⟨h4, h5, h6⟩ := h3
        subst h4 h5 h6
        have ihres := ih cfg efuel _ rest o2 mf2 tr2 hrec
        exact trace_cons_invariant ihres.1 ihres.2
      | undefN name =>
        simp only [ppNodes] at h
        obtain ⟨⟨o2, mf2, tr2⟩, hrec, h3⟩ := PRes.bind_eq_ok h
        simp only [PRes.ok.injEq, Prod.mk.injEq] at h3
        obtain ⟨h4, h5, h6⟩ := h3
        subst h4 h5 h6
        have ihres := ih cfg efuel _ rest o2 mf2 tr2 hrec
        exact trace_cons_invariant ihres.1 ihres.2
      | errorN msg =>
        simp only [ppNodes] at h
        by_cases hstop : cfg.stopOnError = true
        · rw [if_pos hstop] at h
          cases h
        · rw [if_neg hstop] at h
          obtain ⟨⟨o2, mf2, tr2⟩, hrec, h3⟩ := PRes.bind_eq_ok h
          simp only [PRes.ok.injEq, Prod.mk.injEq] at h3
          obtain ⟨h4, h5, h6⟩ := h3
          subst h4 h5 h6
          have ihres := ih cfg efuel ms rest o2 mf2 tr2 hrec
          exact trace_cons_invariant ihres.1 ihres.2
      | pragmaN raw =>
        simp only [ppNodes] at h
        obtain ⟨⟨o2, mf2, tr2⟩, hrec, h3⟩ := PRes.bind_eq_ok h
        simp only [PRes.ok.injEq, Prod.mk.injEq] at h3
        obtain ⟨h4, h5, h6⟩ := h3
        subst h4 h5 h6
        have ihres := ih cfg efuel ms rest o2 mf2 tr2 hrec
        exact trace_cons_invariant ihres.1 ihres.2
      | versionN raw =>
        simp only [ppNodes] at h
        obtain ⟨⟨o2, mf2, tr2⟩, hrec, h3⟩ := PRes.bind_eq_ok h
        simp only [PRes.ok.injEq, Prod.mk.injEq] at h3
        obtain ⟨h4, h5, h6⟩ := h3
        subst h4 h5 h6
        have ihres := ih cfg efuel ms rest o2 mf2 tr2 hrec
        exact trace_cons_invariant ihres.1 ihres.2
      | extensionN raw =>
        simp only [ppNodes] at h
        obtain ⟨⟨o2, mf2, tr2⟩, hrec, h3⟩ := PRes.bind_eq_ok h
        simp only [PRes.ok.injEq, Prod.mk.injEq] at h3
        obtain ⟨h4, h5, h6⟩ := h3
        subst h4 h5 h6
        have ihres := ih cfg efuel ms rest o2 mf2 tr2 hrec
        exact trace_cons_invariant ihres.1 ihres.2
      | lineN raw =>
        simp only [ppNodes] at h
        obtain ⟨⟨o2, mf2, tr2⟩, hrec, h3⟩ := PRes.bind_eq_ok h
        simp only [PRes.ok.injEq, Prod.mk.injEq] at h3
        obtain ⟨h4, h5, h6⟩ := h3
        subst h4 h5 h6
        have ihres := ih cfg efuel ms rest o2 mf2 tr2 hrec
        exact trace_cons_invariant ihres.1 ihres.2
      | conditionalN ik ib elifs ep =>
        simp only [ppNodes] at h
        by_cases hpres : cfg.preserve .conditionalT = true
        · rw [if_pos hpres] at h
          obtain ⟨⟨o2, mf2, tr2⟩, hrec, h3⟩ := PRes.bind_eq_ok h
          simp only [PRes.ok.injEq, Prod.mk.injEq] at h3
          obtain ⟨h4, h5, h6⟩ := h3
          subst h4 h5 h6
          have ihres := ih cfg efuel ms rest o2 mf2 tr2 hrec
          exact trace_cons_invariant ihres.1 ihres.2
        · rw [if_neg hpres] at h
          obtain ⟨ik2, hik, h2⟩ := PRes.bind_eq_ok h
          obtain ⟨elifs2, helifs, h3⟩ := PRes.bind_eq_ok h2
          obtain ⟨v, hv, h4⟩ := PRes.bind_eq_ok h3
          by_cases ht : toBoolean v = true
          · rw [if_pos ht] at h4
            obtain ⟨⟨o2, mf2, tr2⟩, hrec, h5⟩ := PRes.bind_eq_ok h4
            simp only [PRes.ok.injEq, Prod.mk.injEq] at h5
            obtain ⟨h6, h7, h8⟩ := h5
            subst h6 h7 h8
            have ihres := ih cfg efuel ms (ib ++ rest) o2 mf2 tr2 hrec
            exact trace_cons_invariant ihres.1 ihres.2
          · rw [if_neg ht] at h4
            obtain ⟨ob, hob, h5⟩ := PRes.bind_eq_ok h4
            cases ob with
            | some b =>
              obtain ⟨⟨o2, mf2, tr2⟩, hrec, h6⟩ := PRes.bind_eq_ok h5
              simp only [PRes.ok.injEq, Prod.mk.injEq] at h6
              obtain ⟨h7, h8, h9⟩ := h6
              subst h7 h8 h9
              have ihres := ih cfg efuel ms (b ++ rest) o2 mf2 tr2 hrec
              exact trace_cons_invariant ihres.1 ihres.2
            | none =>
              cases ep with
              | some b =>
                obtain ⟨⟨o2, mf2, tr2⟩, hrec, h6⟩ := PRes.bind_eq_ok h5
                simp only [PRes.ok.injEq, Prod.mk.injEq] at h6
                obtain ⟨h7, h8, h9⟩ := h6
                subst h7 h8 h9
                have ihres := ih cfg efuel ms (b ++ rest) o2 mf2 tr2 hrec
                exact trace_cons_invariant ihres.1 ihres.2
              | none =>
                obtain ⟨⟨o2, mf2, tr2⟩, hrec, h6⟩ := PRes.bind_eq_ok h5
                simp only [PRes.ok.injEq, Prod.mk.injEq] at h6
                obtain ⟨h7, h8, h9⟩ := h6
                subst h7 h8 h9
                have ihres := ih cfg efuel ms rest o2 mf2 tr2 hrec
                exact trace_cons_invariant ihres.1 ihres.2

/-- Name of the macro tested by the conditional in the C2 witness program. -/
def qNameT : Text := "Q".data

/-- C2 witness: on the program defining A, then a conditional (ifndef Q)
whose selected branch defines W, then the text W: the environment observed at
the trailing text node is the net effect of the three directives before it,
including the define inside the selected branch. -/
theorem c2_envNetEffect_witness :
    ([((.defineN "A".data "1".data : PPNode), ([] : Macros)),
       (.conditionalN (.ifndef qNameT) [.defineN "W".data "2".data] [] none,
        [("A".data, MacroDef.mk none "1".data)]),
       (.defineN "W".data "2".data, [("A".data, MacroDef.mk none "1".data)]),
       (.textN "W".data,
        [("A".data, MacroDef.mk none "1".data),
         ("W".data, MacroDef.mk none "2".data)])].get
        (Fin.mk 3 (by decide))).2 =
      ((([((.defineN "A".data "1".data : PPNode), ([] : Macros)),
          (.conditionalN (.ifndef qNameT) [.defineN "W".data "2".data] [] none,
           [("A".data, MacroDef.mk none "1".data)]),
          (.defineN "W".data "2".data, [("A".data, MacroDef.mk none "1".data)]),
          (.textN "W".data,
           [("A".data, MacroDef.mk none "1".data),
            ("W".data, MacroDef.mk none "2".data)])].take 3).map Prod.fst).foldl
        dirStep []) := by
  exact (c2_envNetEffect 10 cfgNone 3 []
    [.defineN "A".data "1".data,
     .conditionalN (.ifndef qNameT) [.defineN "W".data "2".data] [] none,
     .textN "W".data]
    [.textN "2".data]
    [("A".data, MacroDef.mk none "1".data), ("W".data, MacroDef.mk none "2".data)]
    [((.defineN "A".data "1".data : PPNode), ([] : Macros)),
     (.conditionalN (.ifndef qNameT) [.defineN "W".data "2".data] [] none,
      [("A".data, MacroDef.mk none "1".data)]),
     (.defineN "W".data "2".data, [("A".data, MacroDef.mk none "1".data)]),
     (.textN "W".data,
      [("A".data, MacroDef.mk none "1".data),
       ("W".data, MacroDef.mk none "2".data)])]
    rfl).1 3 (by decide)

/-- C3: a non-preserved conditional whose expressions expand and whose ifPart
evaluates successfully is replaced as follows: a truthy ifPart selects its
body; otherwise the elif expressions are tried in order and the first truthy
one selects its body, with the remaining elif expressions never evaluated (so
their errors cannot surface); if nothing matched, the else body is selected
when present and the conditional is removed outright otherwise.  In each case
the walk continues through the selected body in place of the conditional,
under the current environment. -/
theorem c3_conditionalSelection :
    (∀ (cfg : PPConfig) (efuel n : Nat) (ms : Macros) (ik : IfKind) (ib : List PPNode)
        (elifs : List (PExpr × List PPNode)) (ep : Option (List PPNode))
        (rest : List PPNode) (ik2 : IfKind) (elifs2 : List (PExpr × List PPNode))
        (v : JSVal),
        cfg.preserve .conditionalT = false →
        expandIfKindF efuel ms ik = .ok ik2 →
        expandElifsF efuel ms elifs = .ok elifs2 →
        evaluateIfPartF ms ik2 = .ok v →
        (toBoolean v = true →
          ppNodes cfg efuel (n + 1) ms (.conditionalN ik ib elifs ep :: rest) =
            (ppNodes cfg efuel n ms (ib ++ rest)).bind fun x =>
              .ok (x.1, x.2.1, (.conditionalN ik ib elifs ep, ms) :: x.2.2)) ∧
        (toBoolean v = false → ∀ b, pickElifF ms elifs2 = .ok (some b) →
          ppNodes cfg efuel (n + 1) ms (.conditionalN ik ib elifs ep :: rest) =
            (ppNodes cfg efuel n ms (b ++ rest)).bind fun x =>
              .ok (x.1, x.2.1, (.conditionalN ik ib elifs ep, ms) :: x.2.2)) ∧
        (toBoolean v = false → pickElifF ms elifs2 = .ok none → ∀ b, ep = some b →
          ppNodes cfg efuel (n + 1) ms (.conditionalN ik ib elifs ep :: rest) =
            (ppNodes cfg efuel n ms (b ++ rest)).bind fun x =>
              .ok (x.1, x.2.1, (.conditionalN ik ib elifs ep, ms) :: x.2.2)) ∧
        (toBoolean v = false → pickElifF ms elifs2 = .ok none → ep = none →
          ppNodes cfg efuel (n + 1) ms (.conditionalN ik ib elifs ep :: rest) =
            (ppNodes cfg efuel n ms rest).bind fun x =>
              .ok (x.1, x.2.1, (.conditionalN ik ib elifs ep, ms) :: x.2.2))) ∧
    (∀ (ms : Macros) (e : PExpr) (b : List PPNode)
        (es : List (PExpr × List PPNode)) (v : JSVal),
        evaluteExpressionF ms e = .ok v → toBoolean v = true →
        pickElifF ms ((e, b) :: es) = .ok (some b)) ∧
    (∀ (ms : Macros) (e : PExpr) (b : List PPNode)
        (es : List (PExpr × List PPNode)) (v : JSVal),
        evaluteExpressionF ms e = .ok v → toBoolean v = false →
        pickElifF ms ((e, b) :: es) = pickElifF ms es) := by
  refine ⟨?_, ?_, ?_⟩
  · intro cfg efuel n ms ik ib elifs ep rest ik2 elifs2 v hpres hik helifs hv
    have hbase : ppNodes cfg efuel (n + 1) ms (.conditionalN ik ib elifs ep :: rest) =
        (evaluateIfPartF ms ik2).bind fun v2 =>
          if toBoolean v2 then
            (ppNodes cfg efuel n ms (ib ++ rest)).bind fun x =>
              .ok (x.1, x.2.1, (.conditionalN ik ib elifs ep, ms) :: x.2.2)
          else
            (pickElifF ms elifs2).bind fun ob =>
              match ob with
              | some b =>
                (ppNodes cfg efuel n ms (b ++ rest)).bind fun x =>
                  .ok (x.1, x.2.1, (.conditionalN ik ib elifs ep, ms) :: x.2.2)
              | none =>
                match ep with
                | some b =>
                  (ppNodes cfg efuel n ms (b ++ rest)).bind fun x =>
                    .ok (x.1, x.2.1, (.conditionalN ik ib elifs ep, ms) :: x.2.2)
                | none =>
                  (ppNodes cfg efuel n ms rest).bind fun x =>
                    .ok (x.1, x.2.1, (.conditionalN ik ib elifs ep, ms) :: x.2.2) := by
      simp only [ppNodes]
      rw [if_neg (by simp [hpres])]
      rw [hik, helifs]
      rfl
    refine ⟨?_, ?_, ?_, ?_⟩
    · intro ht
      rw [hbase, hv]
      simp only [PRes.bind, ht, if_true]
    · intro hf b hpick
      rw [hbase, hv]
      simp only [PRes.bind, hf, Bool.false_eq_true, if_false]
      rw [hpick]
    · intro hf hpick b hep
      rw [hbase, hv]
      simp only [PRes.bind, hf, Bool.false_eq_true, if_false]
      rw [hpick, hep]
    · intro hf hpick hep
      rw [hbase, hv]
      simp only [PRes.bind, hf, Bool.false_eq_true, if_false]
      rw [hpick, hep]
  · intro ms e b es v hv ht
    rw [pickElifF, hv]
    simp only [PRes.bind, ht, if_true]
  · intro ms e b es v hv hf
    rw [pickElifF, hv]
    simp only [PRes.bind, hf, Bool.false_eq_true, if_false]

/-- C3 witness: an always-true if-part selects its body (the walker equation
instantiated concretely), and the first-true-elif rule returns its body
without evaluating a later elif whose expression would throw. -/
theorem c3_conditionalSelection_witness :
    ppNodes cfgNone 5 10 []
        [.conditionalN (.ifExp (.intConst "1".data)) [.textN "x".data] [] none] =
      (ppNodes cfgNone 5 9 [] ([.textN "x".data] ++ [])).bind (fun x =>
        .ok (x.1, x.2.1,
          ((.conditionalN (.ifExp (.intConst "1".data)) [.textN "x".data] [] none : PPNode),
           ([] : Macros)) :: x.2.2)) ∧
    pickElifF []
        [(.intConst "1".data, [.textN "x".data]),
         (.binaryExpr "@".data (.intConst "1".data) (.intConst "1".data),
          [.textN "bad".data])] =
      .ok (some [.textN "x".data]) := by
  constructor
  . exact (c3_conditionalSelection.1 cfgNone 5 9 [] (.ifExp (.intConst "1".data))
      [.textN "x".data] [] none [] (.ifExp (.intConst "1".data)) []
      (.num (.fin (JRat.ofInt 1))) rfl rfl rfl rfl).1 rfl
  . exact c3_conditionalSelection.2.1 [] (.intConst "1".data) [.textN "x".data]
      [(.binaryExpr "@".data (.intConst "1".data) (.intConst "1".data),
        [.textN "bad".data])]
      (.num (.fin (JRat.ofInt 1))) rfl rfl

/-!  Non-termination of macro expansion (C1): the object-like macro A with
body F(A), together with the self-referential function-like macro F(a) with
body F(a), drives expandMacros into an infinite recursion: expanding A
produces the call text F(A), and the argument pre-expansion of that call
uses the FULL environment (the source passes `macros`, not
`without(macros, macroName)`, when pre-expanding arguments), re-entering
expandMacros on the text A under the same environment. -/

def c1MA : MacroDef := ⟨none, "F(A)".data⟩

def c1MF : MacroDef := ⟨some [.ident "a".data], "F(a)".data⟩

def c1Env : Macros := [("A".data, c1MA), ("F".data, c1MF)]

def c1FOnly : Macros := [("F".data, c1MF)]

theorem c1_empty_env (m : Nat) (t : Text) : expandMacrosF (m + 1) [] t = .ok t := rfl

theorem c1_arg_fix : ∀ (m : Nat),
    expandMacrosF m c1FOnly "A".data = .outOfFuel ∨
    expandMacrosF m c1FOnly "A".data = .ok "A".data := by
  intro m
  match m with
  | 0 => exact Or.inl rfl
  | 1 => exact Or.inl (by decide)
  | i + 2 =>
    right
    rw [expandMacrosF]
    show (expandFunctionMacroF (expandMacrosF (i + 1)) (i + 1) c1FOnly "F".data c1MF
        "A".data).bind (expandEntries (expandMacrosF (i + 1)) (i + 1) c1FOnly []) =
      .ok "A".data
    rw [expandFunctionMacroF, fnLoop]
    have hfind : findFnCall "F".data "A".data = none := by decide
    rw [hfind]
    rfl

theorem c1_step (k : Nat) :
    expandMacrosF (k + 2) c1FOnly "F(A)".data =
      ((buildArgKeys (expandMacrosF (k + 1)) c1FOnly [("a".data, "A".data)]).bind
          fun argKeys =>
        (expandMacrosF (k + 1) (withoutName c1FOnly "F".data)
            (tokenPaste (replaceParams ["a".data] argKeys c1MF.body))).bind
          fun expandedReplace =>
          fnLoop (expandMacrosF (k + 1)) c1FOnly "F".data c1MF k
            ([] ++ (replaceFirstStr "F(A)".data (("F(A)".data.drop 0).take (2 + 1 + 1))
                expandedReplace).take (0 + expandedReplace.length))
            ((replaceFirstStr "F(A)".data (("F(A)".data.drop 0).take (2 + 1 + 1))
                expandedReplace).drop (0 + expandedReplace.length))).bind
        (expandEntries (expandMacrosF (k + 1)) (k + 1) c1FOnly []) := rfl

theorem c1_inner_fix : ∀ (m : Nat),
    expandMacrosF m c1FOnly "F(A)".data = .outOfFuel ∨
    expandMacrosF m c1FOnly "F(A)".data = .ok "F(A)".data := by
  intro m
  match m with
  | 0 => exact Or.inl rfl
  | 1 => exact Or.inl (by decide)
  | k + 2 =>
    have htrim : trimJS "A".data = "A".data := by decide
    rcases c1_arg_fix (k + 1) with hA | hA
    · left
      rw [c1_step, buildArgKeys, htrim, hA]
      rfl
    · rw [c1_step, buildArgKeys, htrim, hA]
      cases k with
      | zero => exact Or.inl rfl
      | succ j => exact Or.inr rfl

theorem c1_main_step (m : Nat) :
    expandMacrosF (m + 1) c1Env "A".data =
      ((expandMacrosF m c1FOnly "F(A)".data).bind fun scanned =>
        PRes.ok (tokenPaste (replaceAllWB "A".data scanned "A".data))).bind
        (expandEntries (expandMacrosF m) m c1Env [("F".data, c1MF)]) := rfl

theorem c1_fn_step (j : Nat) :
    expandEntries (expandMacrosF (j + 1)) (j + 1) c1Env [("F".data, c1MF)] "F(A)".data =
      ((buildArgKeys (expandMacrosF (j + 1)) c1Env [("a".data, "A".data)]).bind
          fun argKeys =>
        (expandMacrosF (j + 1) (withoutName c1Env "F".data)
            (tokenPaste (replaceParams ["a".data] argKeys c1MF.body))).bind
          fun expandedReplace =>
          fnLoop (expandMacrosF (j + 1)) c1Env "F".data c1MF j
            ([] ++ (replaceFirstStr "F(A)".data (("F(A)".data.drop 0).take (2 + 1 + 1))
                expandedReplace).take (0 + expandedReplace.length))
            ((replaceFirstStr "F(A)".data (("F(A)".data.drop 0).take (2 + 1 + 1))
                expandedReplace).drop (0 + expandedReplace.length))).bind
        (expandEntries (expandMacrosF (j + 1)) (j + 1) c1Env []) := rfl

/-- C1: macro expansion does NOT terminate on every environment and text:
for the environment A mapped to the body F(A) (object-like) and F(a) mapped
to F(a) (function-like), with input text A, the fuel-indexed expansion -
whose fuel bounds the recursion depth of expandMacros and the iteration
count of each function-macro loop, so that a terminating run of the source
yields `.ok` for every sufficiently large fuel - returns `.outOfFuel` at
every fuel. -/
theorem c1_expansionDiverges : ∀ (n : Nat), expandMacrosF n c1Env "A".data = .outOfFuel := by
  intro n
  induction n with
  | zero => rfl
  | succ m ih =>
    have hpaste : tokenPaste (replaceAllWB "A".data "F(A)".data "A".data) = "F(A)".data := by
      decide
    rcases c1_inner_fix m with hF | hF
    · rw [c1_main_step, hF]
      rfl
    · rw [c1_main_step, hF]
      simp only [PRes.bind]
      rw [hpaste]
      cases m with
      | zero => rfl
      | succ j =>
        rw [c1_fn_step, buildArgKeys]
        have htrim : trimJS "A".data = "A".data := by decide
        rw [htrim, ih]
        rfl

end GlslPP



